import Mathlib

/-!
# change-detector: the diff engine and the watch scheduler

A shallow embedding of `core/diffService.go` and of `core/watcher.go`, followed
by the properties of the specification that were settled against it.

Modelling conventions.

* `*html.Node` is the inductive type `Node`: `Node.nil` is the nil pointer and
  `Node.mk` carries the fields the diff engine reads (`Type`, `Data`, `Attr`,
  `FirstChild`, `NextSibling`).
* `html.NodeType` is an unsigned integer; `%v` prints it in decimal.
* A Go `map[string]string` is an association list with pairwise distinct keys
  (`AttrMap`); the order in which `range` visits its entries is not fixed by
  the language, so every function that ranges over a map takes a `MapOrder`,
  an arbitrary choice of a visiting order for every `range` statement and map.
* `([]Diff, error)` is `Except Error (List Diff)`; a nil-pointer dereference is
  rendered as an error as well. Go strings are rendered as Lean strings, `%d`
  and `%v` of an integer as its decimal numeral.
* `time.Time` is a number of nanoseconds since the Unix epoch, `int64`
  arithmetic is integer arithmetic followed by `wrapInt64`.
* The slice `WatchedUrls` of pointers is a list of targets; a target updated
  through its pointer is updated at its position of the list. The network, the
  parser, the renderer and the digest behind `HttpService` are parameters, and
  so are the readings of the clock. One cycle is modelled on its own: the
  interleaving of concurrent cycles is not.
-/

namespace ChangeDetector

/-! ## The document model (golang.org/x/net/html) -/

/-- The kind of a node, `html.NodeType` (an unsigned integer). -/
abbrev NodeType := Nat

abbrev ErrorNode : NodeType := 0
abbrev TextNode : NodeType := 1
abbrev DocumentNode : NodeType := 2
abbrev ElementNode : NodeType := 3
abbrev CommentNode : NodeType := 4
abbrev DoctypeNode : NodeType := 5
abbrev RawNode : NodeType := 6

/-- An attribute of an element, `html.Attribute`. -/
structure Attribute where
  Namespace : String
  Key : String
  Val : String
deriving DecidableEq, Repr

/-- A possibly nil pointer to a node of a document tree, `*html.Node`. -/
inductive Node where
  | nil : Node
  | mk (Typ : NodeType) (Data : String) (Attr : List Attribute)
      (FirstChild NextSibling : Node) : Node
deriving DecidableEq, Repr

/-- Number of nodes reachable through `FirstChild` and `NextSibling`. -/
def Node.size : Node → Nat
  | .nil => 0
  | .mk _ _ _ fc ns => 1 + fc.size + ns.size

/-- The step `if c != nil { c = c.NextSibling }` of the child walk. -/
def Node.advance : Node → Node
  | .nil => .nil
  | .mk _ _ _ _ ns => ns

/-! ## Strings -/

/-- White space in the sense of Go's `unicode.IsSpace`. -/
def isSpace (c : Char) : Bool :=
  let n := c.toNat
  n = 0x09 || n = 0x0A || n = 0x0B || n = 0x0C || n = 0x0D || n = 0x20 ||
  n = 0x85 || n = 0xA0 || n = 0x1680 || (0x2000 ≤ n && n ≤ 0x200A) ||
  n = 0x2028 || n = 0x2029 || n = 0x202F || n = 0x205F || n = 0x3000

/-- Go's `strings.TrimSpace`: drops leading and trailing white space. -/
def TrimSpace (s : String) : String :=
  String.mk ((s.data.dropWhile isSpace).reverse.dropWhile isSpace).reverse

/-! ## Go maps -/

/-- A `map[string]string`: entries with pairwise distinct keys. -/
abbrev AttrMap := List (String × String)

/-- The lookup `v, exists := m[k]`. -/
def AttrMap.lookup : AttrMap → String → Option String
  | [], _ => none
  | (k', v') :: m, k => if k' = k then some v' else AttrMap.lookup m k

/-- The assignment `m[k] = v`. -/
def AttrMap.set : AttrMap → String → String → AttrMap
  | [], k, v => [(k, v)]
  | (k', v') :: m, k, v => if k' = k then (k, v) :: m else (k', v') :: AttrMap.set m k v

/-- The loop `for _, attr := range n.Attr { attrs[attr.Key] = attr.Val }`. -/
def buildAttrs (attr : List Attribute) : AttrMap :=
  attr.foldl (fun m a => AttrMap.set m a.Key a.Val) []

/-- An iteration order of `range` over maps: every map is visited entry by
entry, each entry once, in an order the language leaves open, and which can
differ from one `range` statement to the next. `range loop path m` is the order
in which loop number `loop` of the call `compareAttributes(_, _, path)` visits
the map `m`. -/
structure MapOrder where
  range : Nat → String → AttrMap → AttrMap
  perm : ∀ loop path m, (range loop path m).Perm m

/-- The order in which the entries were first inserted. -/
def insertionOrder : MapOrder := ⟨fun _ _ m => m, fun _ _ _ => List.Perm.refl _⟩

/-- The opposite of the insertion order. -/
def reverseOrder : MapOrder := ⟨fun _ _ m => m.reverse, fun _ _ m => List.reverse_perm m⟩

/-! ## The diff engine (core/diffService.go) -/

/-- The type of difference found. -/
inductive DiffType where
  | Added
  | Removed
  | Modified
deriving DecidableEq, Repr

/-- A single difference between two HTML documents. -/
structure Diff where
  Typ : DiffType
  Path : String
  Old : String
  New : String
  Message : String
deriving DecidableEq, Repr

/-- Go's `error`. -/
abbrev Error := String

/-- The run-time failure of reading a field through a nil pointer. -/
def nilDereference : Error := "invalid memory address or nil pointer dereference"

/-- Summary of a node, `nodeToString`. -/
def nodeToString : Node → String
  | .nil => ""
  | .mk typ data _ _ _ =>
    if typ = ElementNode then "<" ++ data ++ ">"
    else if typ = TextNode then TrimSpace data
    else "Node(" ++ toString typ ++ ")"

/-- Body of the first loop of `compareAttributes`: one entry of `attrs1`. -/
def removedOrModified (attrs2 : AttrMap) (path : String) (diffs : List Diff)
    (e : String × String) : List Diff :=
  match AttrMap.lookup attrs2 e.1 with
  | none =>
    diffs ++ [{ Typ := .Removed, Path := path ++ "[@" ++ e.1 ++ "]", Old := e.2, New := "",
                Message := "Attribute '" ++ e.1 ++ "' removed" }]
  | some val2 =>
    if e.2 ≠ val2 then
      diffs ++ [{ Typ := .Modified, Path := path ++ "[@" ++ e.1 ++ "]", Old := e.2, New := val2,
                  Message := "Attribute '" ++ e.1 ++ "' changed from " ++ e.2 ++ " to " ++ val2 }]
    else diffs

/-- Body of the second loop of `compareAttributes`: one entry of `attrs2`. -/
def addedAttr (attrs1 : AttrMap) (path : String) (diffs : List Diff)
    (e : String × String) : List Diff :=
  match AttrMap.lookup attrs1 e.1 with
  | none =>
    diffs ++ [{ Typ := .Added, Path := path ++ "[@" ++ e.1 ++ "]", Old := "", New := e.2,
                Message := "Attribute '" ++ e.1 ++ "' added" }]
  | some _ => diffs

/-- Compares the attributes of two element nodes, `compareAttributes`. -/
def compareAttributes (ord : MapOrder) : Node → Node → String → Except Error (List Diff)
  | .mk _ _ attr1 _ _, .mk _ _ attr2 _ _, path =>
    let attrs1 := buildAttrs attr1
    let attrs2 := buildAttrs attr2
    let diffs := (ord.range 1 path attrs1).foldl (removedOrModified attrs2 path) []
    let diffs := (ord.range 2 path attrs2).foldl (addedAttr attrs1 path) diffs
    .ok diffs
  | _, _, _ => .error nilDereference

mutual

/-- Structural comparison of two trees, `compareTrees`. -/
def compareTrees (ord : MapOrder) : Node → Node → String → Except Error (List Diff)
  | .nil, .nil, _ => .ok []
  | .nil, .mk t2 d2 a2 fc2 ns2, path =>
    .ok [{ Typ := .Added, Path := path, Old := "", New := nodeToString (.mk t2 d2 a2 fc2 ns2),
           Message := "Node added at " ++ path }]
  | .mk t1 d1 a1 fc1 ns1, .nil, path =>
    .ok [{ Typ := .Removed, Path := path, Old := nodeToString (.mk t1 d1 a1 fc1 ns1), New := "",
           Message := "Node removed at " ++ path }]
  | .mk t1 d1 a1 fc1 ns1, .mk t2 d2 a2 fc2 ns2, path =>
    if t1 ≠ t2 then
      .ok [{ Typ := .Modified, Path := path, Old := "Type: " ++ toString t1,
             New := "Type: " ++ toString t2, Message := "Node type changed at " ++ path }]
    else if t1 = ElementNode then
      let newPath := path ++ "/" ++ d1
      let diffs : List Diff :=
        if d1 ≠ d2 then
          [{ Typ := .Modified, Path := newPath, Old := d1, New := d2,
             Message := "Tag changed from <" ++ d1 ++ "> to <" ++ d2 ++ ">" }]
        else []
      match compareAttributes ord (.mk t1 d1 a1 fc1 ns1) (.mk t2 d2 a2 fc2 ns2) newPath with
      | .error err => .error err
      | .ok attrDiffs =>
        match compareChildren ord (.mk t1 d1 a1 fc1 ns1) (.mk t2 d2 a2 fc2 ns2) newPath with
        | .error err => .error err
        | .ok childDiffs => .ok (diffs ++ attrDiffs ++ childDiffs)
    else if t1 = TextNode then
      let text1 := TrimSpace d1
      let text2 := TrimSpace d2
      let diffs : List Diff :=
        if text1 ≠ text2 ∧ (text1 ≠ "" ∨ text2 ≠ "") then
          [{ Typ := .Modified, Path := path, Old := text1, New := text2,
             Message := "Text changed at " ++ path }]
        else []
      match compareTrees ord ns1 ns2 path with
      | .error err => .error err
      | .ok siblingDiffs => .ok (diffs ++ siblingDiffs)
    else
      match compareTrees ord ns1 ns2 path with
      | .error err => .error err
      | .ok siblingDiffs => .ok ([] ++ siblingDiffs)
termination_by n1 n2 _ => (n1.size + n2.size, 1)
decreasing_by
  all_goals simp only [Node.size]
  · exact Prod.Lex.right _ (by decide)
  · exact Prod.Lex.left _ _ (by omega)
  · exact Prod.Lex.left _ _ (by omega)

/-- Compares the child nodes of two nodes, `compareChildren`. -/
def compareChildren (ord : MapOrder) : Node → Node → String → Except Error (List Diff)
  | .mk _ _ _ fc1 _, .mk _ _ _ fc2 _, path => childLoop ord fc1 fc2 path 0 []
  | _, _, _ => .error nilDereference
termination_by n1 n2 _ => (n1.size + n2.size, 0)
decreasing_by
  simp only [Node.size]
  exact Prod.Lex.left _ _ (by omega)

/-- The loop `for c1 != nil || c2 != nil` of `compareChildren`, entered with the
current children `c1`, `c2`, the current `index` and the `diffs` so far. -/
def childLoop (ord : MapOrder) (c1 c2 : Node) (path : String) (index : Nat)
    (diffs : List Diff) : Except Error (List Diff) :=
  if c1 ≠ .nil ∨ c2 ≠ .nil then
    let childPath := path ++ "[" ++ toString index ++ "]"
    match compareTrees ord c1 c2 childPath with
    | .error err => .error err
    | .ok childDiffs =>
      childLoop ord c1.advance c2.advance path (index + 1) (diffs ++ childDiffs)
  else .ok diffs
termination_by (c1.size + c2.size, 2)
decreasing_by
  · exact Prod.Lex.right _ (by decide)
  · rename_i h
    refine Prod.Lex.left _ _ ?_
    cases c1 <;> cases c2 <;> simp [Node.size, Node.advance] at h ⊢
    all_goals omega

end

/-- The loop of `diffsToString`, entered at position `i` with the `result`
written so far. -/
def renderLoop : List Diff → Nat → String → String
  | [], _, result => result
  | diff :: rest, i, result =>
    renderLoop rest (i + 1) (result ++ (toString (i + 1) ++ ". " ++ diff.Message ++ "\n"))

/-- Renders the records as a numbered list, `diffsToString`. -/
def diffsToString (diffs : List Diff) : String :=
  renderLoop diffs 0 ""

/-- The report of the differences between two trees, `DiffService.Diff`. -/
def DiffService.Diff (ord : MapOrder) (old new : Node) : String :=
  match compareTrees ord old new "" with
  | .error _ => ""
  | .ok diffs => diffsToString diffs

/-! ## The records as plain lists

`compareTrees` never fails (`compare_total` below); `treeDiffs`, `loopDiffs` and
`attrDiffs` name the record lists it computes. -/

/-- Records of one entry of `attrs1` in the first loop of `compareAttributes`. -/
def removedOrModifiedAt (attrs2 : AttrMap) (path : String) (e : String × String) : List Diff :=
  removedOrModified attrs2 path [] e

/-- Records of one entry of `attrs2` in the second loop of `compareAttributes`. -/
def addedAttrAt (attrs1 : AttrMap) (path : String) (e : String × String) : List Diff :=
  addedAttr attrs1 path [] e

/-- The records `compareAttributes` returns for two attribute lists. -/
def attrDiffs (ord : MapOrder) (attr1 attr2 : List Attribute) (path : String) : List Diff :=
  (ord.range 1 path (buildAttrs attr1)).flatMap (removedOrModifiedAt (buildAttrs attr2) path) ++
  (ord.range 2 path (buildAttrs attr2)).flatMap (addedAttrAt (buildAttrs attr1) path)

/-- The records of `compareTrees`, the empty list standing for a failure. -/
def treeDiffs (ord : MapOrder) (n1 n2 : Node) (path : String) : List Diff :=
  match compareTrees ord n1 n2 path with
  | .ok diffs => diffs
  | .error _ => []

/-- The records the child walk adds from position `index` on. -/
def loopDiffs (ord : MapOrder) (c1 c2 : Node) (path : String) (index : Nat) : List Diff :=
  match childLoop ord c1 c2 path index [] with
  | .ok diffs => diffs
  | .error _ => []

/-! ## Notions used to state the properties -/

/-- Two trees that differ at most in the leading and trailing white space of
their text nodes. -/
def sameUpToTextSpace : Node → Node → Bool
  | .nil, .nil => true
  | .mk t1 d1 a1 fc1 ns1, .mk t2 d2 a2 fc2 ns2 =>
    decide (t1 = t2) && (if t1 = TextNode then decide (TrimSpace d1 = TrimSpace d2)
      else decide (d1 = d2)) && decide (a1 = a2) &&
      sameUpToTextSpace fc1 fc2 && sameUpToTextSpace ns1 ns2
  | _, _ => false

/-- The keys of a map. -/
def AttrMap.keys (m : AttrMap) : List String := m.map Prod.fst

/-- The type of the same difference seen in the opposite direction. -/
def DiffType.flip : DiffType → DiffType
  | .Added => .Removed
  | .Removed => .Added
  | .Modified => .Modified

/-- What a record reports: its type, its path as seen through `f`, and its
old and new value (the message is left out). -/
def Diff.view {α : Type} (f : String → α) (d : Diff) : DiffType × α × String × String :=
  (d.Typ, f d.Path, d.Old, d.New)

/-- The report of the same difference in the opposite direction: Added and
Removed exchanged, old and new value exchanged. -/
def Diff.swappedView {α : Type} (f : String → α) (d : Diff) :
    DiffType × α × String × String :=
  (d.Typ.flip, f d.Path, d.New, d.Old)

/-- No two elements that the walk compares differ in their tag. With
`loop = false` the walk is that of `compareTrees` from the two nodes, with
`loop = true` that of the child loop, which also goes on to the next
siblings. -/
def noTagChange : Bool → Node → Node → Bool
  | loop, .mk t1 d1 _ fc1 ns1, .mk t2 d2 _ fc2 ns2 =>
    (if t1 ≠ t2 then true
     else if t1 = ElementNode then decide (d1 = d2) && noTagChange true fc1 fc2
     else noTagChange false ns1 ns2)
    && (!loop || noTagChange true ns1 ns2)
  | _, _, _ => true

/-- The lines of the numbered list of the records, counted from `i + 1`: the
decimal rendering of the number, then `. `, then the message. -/
def numberedFrom : Nat → List Diff → List String
  | _, [] => []
  | i, d :: ds => (toString (i + 1) ++ ". " ++ d.Message) :: numberedFrom (i + 1) ds

/-- The text made of the given lines, each followed by a newline. -/
def unlines : List String → String
  | [] => ""
  | l :: ls => l ++ "\n" ++ unlines ls

/-- Splits text at its newlines; `cur` is the line read so far. -/
def linesOf : List Char → List Char → List String
  | [], _ => []
  | c :: cs, cur => if c = '\n' then String.mk cur :: linesOf cs [] else linesOf cs (cur ++ [c])

/-- The newline-terminated lines a string consists of. -/
def terminatedLines (s : String) : List String := linesOf s.data []

/-! ## The watch scheduler (core/watcher.go) -/

/-- An instant, `time.Time`, as nanoseconds since the Unix epoch. -/
structure Time where
  nanos : Int
deriving DecidableEq, Repr

/-- The seconds since the Unix epoch, `t.Unix()`. -/
def Time.Unix (t : Time) : Int := t.nanos / 1000000000

/-- The channel a report is sent back to, `ChannelInfo`. -/
structure ChannelInfo where
  ID : String
  ChannelType : String
  ChannelID : String
deriving DecidableEq, Repr

/-- The request to watch a site, `WatchRequest`. -/
structure WatchRequest where
  FeedbackChannelInfo : ChannelInfo
  URL : String
  Interval : Int
deriving DecidableEq, Repr

/-- A watched target, `Watched`. -/
structure Watched where
  Hash : String
  Body : Node
  LastUpdate : Time
  Interval : Int
  Request : WatchRequest
deriving DecidableEq, Repr

/-- The value of a 64-bit signed integer after wrap-around. -/
def wrapInt64 (x : Int) : Int := (x + 2 ^ 63) % 2 ^ 64 - 2 ^ 63

/-- The value `nextUpdate := watched.LastUpdate.Unix() + watched.Interval` of `Start`. -/
def Watched.nextUpdate (watched : Watched) : Int :=
  wrapInt64 (watched.LastUpdate.Unix + watched.Interval)

/-- One pass of the loop `for _, watched := range watcherService.WatchedUrls` of
`Start`, from position `i` on: the targets for which `Request` is launched.
`clock i` is the value of `time.Now().Unix()` read at position `i`. -/
def startPass (clock : Nat → Int) : Nat → List Watched → List Watched
  | _, [] => []
  | i, watched :: rest =>
    let current := clock i
    if watched.nextUpdate < current then watched :: startPass clock (i + 1) rest
    else startPass clock (i + 1) rest

/-! ## The registry and the cycle (core/watcher.go) -/

/-- The test `t.After(u)`: the instant `t` is after the instant `u`. -/
def Time.After (t u : Time) : Bool := decide (u.nanos < t.nanos)

/-- The report handed to the change callback, `WatchResponse`. -/
structure WatchResponse where
  URL : String
  ChannelID : String
  Diff : String
deriving DecidableEq, Repr

/-- The HTTP service, `HttpService`, given by what its two methods return; both
depend on the network, the HTML parser, the renderer and the digest, which lie
outside the repository. `GetBody` returns Go's pair of a node and an error: the
body element of the fetched page and no error, or a nil node and the error of
the request, of the parse or of the search for the body. `GetNodeHash` returns
the digest of the rendered node, `none` standing for a run that ends in a
panic. -/
structure HttpService where
  GetBody : String → Node × Option Error
  GetNodeHash : Node → Option String

/-- The watcher, `WatcherService`. `OnChangeCallback` tells whether a callback
is set; what is handed to it is recorded in the outcome of `Request`. -/
structure WatcherService where
  WatchedUrls : List Watched
  httpService : HttpService
  OnChangeCallback : Bool

/-- The loop of Go's `sort.Search`, with the invariant `f(i-1) == false`,
`f(j) == true`. -/
def searchLoop (f : Nat → Bool) (i j : Nat) : Nat :=
  if i < j then
    let h := (i + j) / 2
    if !f h then searchLoop f (h + 1) j else searchLoop f i h
  else i
termination_by j - i
decreasing_by
  all_goals simp_wf
  all_goals omega

/-- Go's `sort.Search(n, f)`. -/
def Search (n : Nat) (f : Nat → Bool) : Nat := searchLoop f 0 n

/-- Sorted insertion of a target into the registry, `WatcherService.Insert`:
the slice is grown by one, the entries from `idx` on are shifted by one and
`watch` is written at `idx` (`persistWatched` has an empty body). -/
def WatcherService.Insert (watcherService : WatcherService) (watch : Watched) :
    WatcherService :=
  let isAfterIndex := fun (i : Nat) =>
    match watcherService.WatchedUrls[i]? with
    | some w => w.LastUpdate.After watch.LastUpdate
    | none => false
  let idx := Search watcherService.WatchedUrls.length isAfterIndex
  { watcherService with
    WatchedUrls := watcherService.WatchedUrls.take idx ++
      watch :: watcherService.WatchedUrls.drop idx }

/-- Registration of a request, `WatcherService.Register`, at time `now`: the
watcher it leaves (its `error` result is always nil); `none` stands for a run
that ends in a panic. -/
def WatcherService.Register (watcherService : WatcherService) (now : Time)
    (request : WatchRequest) : Option WatcherService :=
  let body := (watcherService.httpService.GetBody request.URL).1
  match watcherService.httpService.GetNodeHash body with
  | none => none
  | some hash =>
    some (watcherService.Insert
      { Request := request, Interval := 10, Body := body, Hash := hash, LastUpdate := now })

/-- What one run of `Request` does: the target as it leaves it, the calls of
the diff engine (old and new tree) and the responses handed to the callback. -/
structure Cycle where
  watched : Watched
  diffCalls : List (Node × Node)
  notified : List WatchResponse
deriving DecidableEq, Repr

/-- One cycle for one target, `WatcherService.Request`; `now1` and `now2` are
the two readings of `time.Now()`, `none` stands for a run that ends in a
panic. -/
def WatcherService.Request (watcherService : WatcherService) (ord : MapOrder)
    (now1 now2 : Time) (watched : Watched) : Option Cycle :=
  let newBody := (watcherService.httpService.GetBody watched.Request.URL).1
  match watcherService.httpService.GetNodeHash newBody with
  | none => none
  | some newHash =>
    let effects : List (Node × Node) × List WatchResponse :=
      if watched.Hash ≠ "" ∧ watched.Hash ≠ newHash then
        let response : WatchResponse :=
          { URL := watched.Request.URL,
            ChannelID := watched.Request.FeedbackChannelInfo.ChannelID,
            Diff := DiffService.Diff ord watched.Body newBody }
        ([(watched.Body, newBody)], if watcherService.OnChangeCallback then [response] else [])
      else ([], [])
    let watched := { watched with Body := newBody, Hash := newHash, LastUpdate := now1 }
    let watched := { watched with LastUpdate := now2 }
    some { watched := watched, diffCalls := effects.1, notified := effects.2 }

/-- The watcher after `Request` has run on the target at position `i` of the
registry: the slice holds pointers, so the target is updated where it
stands. -/
def WatcherService.RequestAt (watcherService : WatcherService) (ord : MapOrder)
    (now1 now2 : Time) (i : Nat) : Option (WatcherService × Cycle) :=
  match watcherService.WatchedUrls[i]? with
  | none => none
  | some watched =>
    match watcherService.Request ord now1 now2 watched with
    | none => none
    | some cycle =>
      some ({ watcherService with WatchedUrls := watcherService.WatchedUrls.set i cycle.watched },
        cycle)

/-! ## Notions used to state the properties of the scheduler -/

/-- The time at which a target is due: `LastUpdate + Interval`, in seconds. -/
def Watched.dueAt (watched : Watched) : Int := watched.LastUpdate.Unix + watched.Interval

/-- The registry is sorted ascending by `dueAt`. -/
abbrev SortedByDueAt (ws : List Watched) : Prop :=
  ws.Pairwise fun a b => a.dueAt ≤ b.dueAt

/-- The registry is sorted ascending by `LastUpdate`. -/
abbrev SortedByLastUpdate (ws : List Watched) : Prop :=
  ws.Pairwise fun a b => a.LastUpdate.nanos ≤ b.LastUpdate.nanos

/-- A target of the examples: last updated `seconds` after the epoch, with the
digest `h` of an empty body. -/
def targetAt (url : String) (seconds interval : Int) : Watched :=
  { Hash := "h", Body := .nil, LastUpdate := ⟨seconds * 1000000000⟩, Interval := interval,
    Request := ⟨⟨"1", "telegram", "42"⟩, url, 0⟩ }

/-- A watcher of the examples: every fetch returns `fetched`, every digest is
`hash`, a callback is set. -/
def watcherOf (ws : List Watched) (fetched : Node × Option Error) (hash : Option String) :
    WatcherService :=
  { WatchedUrls := ws, httpService := ⟨fun _ => fetched, fun _ => hash⟩,
    OnChangeCallback := true }

/-- The number of entries of the registry with the given identity. -/
def entriesWith (url : String) (ws : List Watched) : Nat :=
  ws.countP fun x => decide (x.Request.URL = url)

/-- The value of the attribute `k` of a node that lists the attributes `attr`:
the value of the last attribute with the key `k`. -/
def attrValue : List Attribute → String → Option String
  | [], _ => none
  | a :: rest, k =>
    match attrValue rest k with
    | some v => some v
    | none => if a.Key = k then some a.Val else none

/-! ## Unfolding the comparison -/

theorem removedOrModified_acc (attrs2 : AttrMap) (path : String) (acc : List Diff)
    (e : String × String) :
    removedOrModified attrs2 path acc e = acc ++ removedOrModifiedAt attrs2 path e := by
  unfold removedOrModifiedAt removedOrModified
  cases AttrMap.lookup attrs2 e.1 with
  | none => simp
  | some v => by_cases h : e.2 = v <;> simp [h]

theorem addedAttr_acc (attrs1 : AttrMap) (path : String) (acc : List Diff)
    (e : String × String) :
    addedAttr attrs1 path acc e = acc ++ addedAttrAt attrs1 path e := by
  unfold addedAttrAt addedAttr
  cases AttrMap.lookup attrs1 e.1 <;> simp

theorem foldl_removedOrModified (attrs2 : AttrMap) (path : String) (l : AttrMap)
    (acc : List Diff) :
    l.foldl (removedOrModified attrs2 path) acc
      = acc ++ l.flatMap (removedOrModifiedAt attrs2 path) := by
  induction l generalizing acc with
  | nil => simp
  | cons e l ih => simp [List.foldl_cons, ih, removedOrModified_acc, List.append_assoc]

theorem foldl_addedAttr (attrs1 : AttrMap) (path : String) (l : AttrMap) (acc : List Diff) :
    l.foldl (addedAttr attrs1 path) acc = acc ++ l.flatMap (addedAttrAt attrs1 path) := by
  induction l generalizing acc with
  | nil => simp
  | cons e l ih => simp [List.foldl_cons, ih, addedAttr_acc, List.append_assoc]

theorem compareAttributes_mk (ord : MapOrder) (t1 : NodeType) (d1 : String)
    (a1 : List Attribute) (fc1 ns1 : Node) (t2 : NodeType) (d2 : String) (a2 : List Attribute)
    (fc2 ns2 : Node) (path : String) :
    compareAttributes ord (.mk t1 d1 a1 fc1 ns1) (.mk t2 d2 a2 fc2 ns2) path
      = .ok (attrDiffs ord a1 a2 path) := by
  simp [compareAttributes, attrDiffs, foldl_removedOrModified, foldl_addedAttr]

/-- Induction along the recursion of `compareTrees` and of the child walk. -/
theorem pair_induction {P Q : Node → Node → Prop}
    (nil_left : ∀ b, P .nil b) (nil_right : ∀ a, P a .nil)
    (both : ∀ t1 d1 a1 fc1 ns1 t2 d2 a2 fc2 ns2,
      Q fc1 fc2 → P ns1 ns2 → P (.mk t1 d1 a1 fc1 ns1) (.mk t2 d2 a2 fc2 ns2))
    (stop : Q .nil .nil)
    (step : ∀ c1 c2, (c1 ≠ .nil ∨ c2 ≠ .nil) → P c1 c2 → Q c1.advance c2.advance → Q c1 c2) :
    ∀ a b, P a b ∧ Q a b := by
  have key : ∀ n a b, Node.size a + Node.size b ≤ n → P a b ∧ Q a b := by
    intro n
    induction n with
    | zero =>
      intro a b h
      cases a <;> cases b <;> simp [Node.size] at h
      exact ⟨nil_left _, stop⟩
    | succ n ih =>
      intro a b h
      have hP : P a b := by
        cases a with
        | nil => exact nil_left _
        | mk t1 d1 a1 fc1 ns1 =>
          cases b with
          | nil => exact nil_right _
          | mk t2 d2 a2 fc2 ns2 =>
            simp only [Node.size] at h
            exact both _ _ _ _ _ _ _ _ _ _ (ih fc1 fc2 (by omega)).2 (ih ns1 ns2 (by omega)).1
      refine ⟨hP, ?_⟩
      by_cases hn : a ≠ .nil ∨ b ≠ .nil
      · refine step a b hn hP (ih _ _ ?_).2
        cases a <;> cases b <;> simp [Node.size, Node.advance] at hn h ⊢
        all_goals omega
      · have ha : a = .nil := by by_contra hc; exact hn (Or.inl hc)
        have hb : b = .nil := by by_contra hc; exact hn (Or.inr hc)
        subst ha; subst hb; exact stop
  intro a b
  exact key _ a b (le_refl _)

theorem compare_total (ord : MapOrder) (a b : Node) :
    (∀ path, ∃ ds, compareTrees ord a b path = .ok ds) ∧
    (∀ path index, ∃ ds, ∀ acc, childLoop ord a b path index acc = .ok (acc ++ ds)) := by
  refine pair_induction (P := fun a b => ∀ path, ∃ ds, compareTrees ord a b path = .ok ds)
    (Q := fun a b => ∀ path index, ∃ ds, ∀ acc,
      childLoop ord a b path index acc = .ok (acc ++ ds))
    ?_ ?_ ?_ ?_ ?_ a b
  · intro b path
    cases b <;> simp [compareTrees]
  · intro a path
    cases a <;> simp [compareTrees]
  · intro t1 d1 a1 fc1 ns1 t2 d2 a2 fc2 ns2 hQ hP path
    rw [compareTrees]
    by_cases ht : t1 = t2
    · subst ht
      by_cases he : t1 = ElementNode
      · obtain ⟨ds, hds⟩ := hQ (path ++ "/" ++ d1) 0
        simp [he, compareAttributes_mk, compareChildren, hds]
      · obtain ⟨ds, hds⟩ := hP path
        by_cases hx : t1 = TextNode <;> simp [he, hx, hds]
    · simp [ht]
  · intro path index
    refine ⟨[], fun acc => ?_⟩
    rw [childLoop]
    simp
  · intro c1 c2 hn hP hQ path index
    obtain ⟨ds, hds⟩ := hP (path ++ "[" ++ toString index ++ "]")
    obtain ⟨ds', hds'⟩ := hQ path (index + 1)
    refine ⟨ds ++ ds', fun acc => ?_⟩
    rw [childLoop]
    simp only [hn, if_true, hds, hds']
    simp

theorem compareTrees_eq (ord : MapOrder) (a b : Node) (path : String) :
    compareTrees ord a b path = .ok (treeDiffs ord a b path) := by
  obtain ⟨ds, h⟩ := (compare_total ord a b).1 path
  simp [treeDiffs, h]

theorem childLoop_eq (ord : MapOrder) (c1 c2 : Node) (path : String) (index : Nat)
    (acc : List Diff) :
    childLoop ord c1 c2 path index acc = .ok (acc ++ loopDiffs ord c1 c2 path index) := by
  obtain ⟨ds, h⟩ := (compare_total ord c1 c2).2 path index
  have h0 := h []
  simp only [List.nil_append] at h0
  simp [loopDiffs, h0, h acc]

theorem compareChildren_eq (ord : MapOrder) (t1 : NodeType) (d1 : String)
    (a1 : List Attribute) (fc1 ns1 : Node) (t2 : NodeType) (d2 : String) (a2 : List Attribute)
    (fc2 ns2 : Node) (path : String) :
    compareChildren ord (.mk t1 d1 a1 fc1 ns1) (.mk t2 d2 a2 fc2 ns2) path
      = .ok (loopDiffs ord fc1 fc2 path 0) := by
  rw [compareChildren, childLoop_eq]
  simp

@[simp] theorem treeDiffs_nil_nil (ord : MapOrder) (path : String) :
    treeDiffs ord .nil .nil path = [] := by
  simp [treeDiffs, compareTrees]

@[simp] theorem treeDiffs_nil_mk (ord : MapOrder) (t2 : NodeType) (d2 : String)
    (a2 : List Attribute) (fc2 ns2 : Node) (path : String) :
    treeDiffs ord .nil (.mk t2 d2 a2 fc2 ns2) path
      = [{ Typ := .Added, Path := path, Old := "", New := nodeToString (.mk t2 d2 a2 fc2 ns2),
           Message := "Node added at " ++ path }] := by
  simp [treeDiffs, compareTrees]

@[simp] theorem treeDiffs_mk_nil (ord : MapOrder) (t1 : NodeType) (d1 : String)
    (a1 : List Attribute) (fc1 ns1 : Node) (path : String) :
    treeDiffs ord (.mk t1 d1 a1 fc1 ns1) .nil path
      = [{ Typ := .Removed, Path := path, Old := nodeToString (.mk t1 d1 a1 fc1 ns1), New := "",
           Message := "Node removed at " ++ path }] := by
  simp [treeDiffs, compareTrees]

theorem treeDiffs_mk_mk (ord : MapOrder) (t1 : NodeType) (d1 : String)
    (a1 : List Attribute) (fc1 ns1 : Node) (t2 : NodeType) (d2 : String) (a2 : List Attribute)
    (fc2 ns2 : Node) (path : String) :
    treeDiffs ord (.mk t1 d1 a1 fc1 ns1) (.mk t2 d2 a2 fc2 ns2) path
      = if t1 ≠ t2 then
          [{ Typ := .Modified, Path := path, Old := "Type: " ++ toString t1,
             New := "Type: " ++ toString t2, Message := "Node type changed at " ++ path }]
        else if t1 = ElementNode then
          (if d1 ≠ d2 then
            [{ Typ := .Modified, Path := path ++ "/" ++ d1, Old := d1, New := d2,
               Message := "Tag changed from <" ++ d1 ++ "> to <" ++ d2 ++ ">" }]
           else []) ++ attrDiffs ord a1 a2 (path ++ "/" ++ d1)
            ++ loopDiffs ord fc1 fc2 (path ++ "/" ++ d1) 0
        else if t1 = TextNode then
          (if TrimSpace d1 ≠ TrimSpace d2 ∧ (TrimSpace d1 ≠ "" ∨ TrimSpace d2 ≠ "") then
            [{ Typ := .Modified, Path := path, Old := TrimSpace d1, New := TrimSpace d2,
               Message := "Text changed at " ++ path }]
           else []) ++ treeDiffs ord ns1 ns2 path
        else treeDiffs ord ns1 ns2 path := by
  have h := compareTrees_eq ord (.mk t1 d1 a1 fc1 ns1) (.mk t2 d2 a2 fc2 ns2) path
  rw [compareTrees] at h
  simp only [compareAttributes_mk, compareChildren_eq, compareTrees_eq ord ns1 ns2] at h
  split_ifs at h ⊢ <;> simp_all

@[simp] theorem loopDiffs_nil_nil (ord : MapOrder) (path : String) (index : Nat) :
    loopDiffs ord .nil .nil path index = [] := by
  unfold loopDiffs
  rw [childLoop]
  simp

theorem loopDiffs_step (ord : MapOrder) (c1 c2 : Node) (path : String) (index : Nat)
    (h : c1 ≠ .nil ∨ c2 ≠ .nil) :
    loopDiffs ord c1 c2 path index
      = treeDiffs ord c1 c2 (path ++ "[" ++ toString index ++ "]")
          ++ loopDiffs ord c1.advance c2.advance path (index + 1) := by
  have e := childLoop_eq ord c1 c2 path index []
  rw [childLoop] at e
  simp only [h, if_true, compareTrees_eq, childLoop_eq, List.nil_append] at e
  injection e with e
  exact e.symm

/-! ## Attribute maps -/

theorem AttrMap.keys_set (m : AttrMap) (k v : String) :
    AttrMap.keys (AttrMap.set m k v)
      = if k ∈ AttrMap.keys m then AttrMap.keys m else AttrMap.keys m ++ [k] := by
  induction m with
  | nil => simp [AttrMap.set, AttrMap.keys]
  | cons e m ih =>
    obtain ⟨k', v'⟩ := e
    simp only [AttrMap.keys] at ih
    by_cases h : k' = k
    · simp [AttrMap.set, AttrMap.keys, h]
    · have h' : ¬ k = k' := fun e => h e.symm
      by_cases hm : k ∈ List.map Prod.fst m
      · simp [AttrMap.set, AttrMap.keys, h, h', ih, hm]
      · simp [AttrMap.set, AttrMap.keys, h, h', ih, hm]

theorem AttrMap.nodup_keys_set (m : AttrMap) (k v : String) (h : (AttrMap.keys m).Nodup) :
    (AttrMap.keys (AttrMap.set m k v)).Nodup := by
  rw [AttrMap.keys_set]
  split_ifs with hk
  · exact h
  · exact List.Nodup.append h (List.nodup_singleton k) (by simpa using hk)

theorem foldl_set_nodup (attr : List Attribute) (m : AttrMap) (h : (AttrMap.keys m).Nodup) :
    (AttrMap.keys (attr.foldl (fun m a => AttrMap.set m a.Key a.Val) m)).Nodup := by
  induction attr generalizing m with
  | nil => simpa using h
  | cons a attr ih => exact ih _ (AttrMap.nodup_keys_set m a.Key a.Val h)

theorem buildAttrs_nodup (attr : List Attribute) : (AttrMap.keys (buildAttrs attr)).Nodup :=
  foldl_set_nodup attr [] (by simp [AttrMap.keys])

theorem AttrMap.lookup_eq_none (m : AttrMap) (k : String) :
    AttrMap.lookup m k = none ↔ k ∉ AttrMap.keys m := by
  induction m with
  | nil => simp [AttrMap.lookup, AttrMap.keys]
  | cons e m ih =>
    obtain ⟨k', v'⟩ := e
    simp only [AttrMap.keys] at ih
    by_cases h : k' = k
    · simp [AttrMap.lookup, AttrMap.keys, h]
    · have h' : ¬ k = k' := fun e => h e.symm
      simp [AttrMap.lookup, AttrMap.keys, h, h', ih]

theorem AttrMap.lookup_eq_some (m : AttrMap) (h : (AttrMap.keys m).Nodup) (k v : String) :
    AttrMap.lookup m k = some v ↔ (k, v) ∈ m := by
  induction m with
  | nil => simp [AttrMap.lookup]
  | cons e m ih =>
    obtain ⟨k', v'⟩ := e
    simp only [AttrMap.keys, List.map_cons, List.nodup_cons] at h
    have ih := ih h.2
    by_cases hk : k' = k
    · subst hk
      have hn : (k', v) ∉ m := fun hm => h.1 (List.mem_map.mpr ⟨(k', v), hm, rfl⟩)
      simp [AttrMap.lookup, hn, eq_comm]
    · have h' : ¬ k = k' := fun e => hk e.symm
      simp [AttrMap.lookup, hk, h', ih]

theorem mem_range (ord : MapOrder) (loop : Nat) (path : String) (m : AttrMap)
    (e : String × String) : e ∈ ord.range loop path m ↔ e ∈ m := (ord.perm loop path m).mem_iff

/-! ## C1: a tree against itself -/

theorem attrDiffs_self (ord : MapOrder) (attr : List Attribute) (path : String) :
    attrDiffs ord attr attr path = [] := by
  have nd := buildAttrs_nodup attr
  unfold attrDiffs
  simp only [List.append_eq_nil, List.flatMap_eq_nil_iff]
  constructor
  · intro e he
    have hl := (AttrMap.lookup_eq_some _ nd e.1 e.2).mpr ((mem_range ord _ _ _ e).mp he)
    simp [removedOrModifiedAt, removedOrModified, hl]
  · intro e he
    have hl := (AttrMap.lookup_eq_some _ nd e.1 e.2).mpr ((mem_range ord _ _ _ e).mp he)
    simp [addedAttrAt, addedAttr, hl]

theorem diffs_of_sameUpToTextSpace (ord : MapOrder) (a : Node) :
    ∀ b, sameUpToTextSpace a b = true →
      (∀ path, treeDiffs ord a b path = []) ∧ (∀ path index, loopDiffs ord a b path index = []) := by
  induction a with
  | nil =>
    intro b hb
    cases b with
    | nil => simp
    | mk _ _ _ _ _ => simp [sameUpToTextSpace] at hb
  | mk t1 d1 a1 fc1 ns1 ihfc ihns =>
    intro b hb
    cases b with
    | nil => simp [sameUpToTextSpace] at hb
    | mk t2 d2 a2 fc2 ns2 =>
      simp only [sameUpToTextSpace, Bool.and_eq_true, decide_eq_true_eq] at hb
      obtain ⟨⟨⟨⟨ht, hd⟩, ha⟩, hfc⟩, hns⟩ := hb
      subst ht; subst ha
      have hT : ∀ path, treeDiffs ord (.mk t1 d1 a1 fc1 ns1) (.mk t1 d2 a1 fc2 ns2) path = [] := by
        intro path
        rw [treeDiffs_mk_mk]
        by_cases he : t1 = ElementNode
        · have hx : ¬ t1 = TextNode := by rw [he]; decide
          simp only [hx, if_false, decide_eq_true_eq] at hd
          subst hd
          simp [he, attrDiffs_self, (ihfc fc2 hfc).2]
        · by_cases hx : t1 = TextNode
          · simp only [hx, if_true, decide_eq_true_eq] at hd
            simp [hx, hd, (ihns ns2 hns).1]
          · simp [he, hx, (ihns ns2 hns).1]
      refine ⟨hT, fun path index => ?_⟩
      rw [loopDiffs_step ord _ _ path index (Or.inl (by simp)), hT]
      simp [Node.advance, (ihns ns2 hns).2]

theorem sameUpToTextSpace_refl (t : Node) : sameUpToTextSpace t t = true := by
  induction t with
  | nil => rfl
  | mk t d a fc ns ihfc ihns => simp [sameUpToTextSpace, ihfc, ihns]

/-- C1. Diffing a tree against itself yields no record: for every document tree
`t`, every path `p` and every iteration order of the attribute maps,
`compareTrees(t, t, p)` returns the empty record sequence, and
`DiffService.Diff(t, t)` is the empty string. -/
theorem C1_compareTrees_self (ord : MapOrder) (t : Node) (p : String) :
    compareTrees ord t t p = .ok [] ∧ DiffService.Diff ord t t = "" := by
  have h : ∀ path, compareTrees ord t t path = .ok [] := fun path => by
    rw [compareTrees_eq, (diffs_of_sameUpToTextSpace ord t t (sameUpToTextSpace_refl t)).1]
  refine ⟨h p, ?_⟩
  simp only [DiffService.Diff, h ""]
  rfl

/-! ## C2: a child appended -/

theorem treeDiffs_self (ord : MapOrder) (t : Node) (path : String) :
    treeDiffs ord t t path = [] :=
  (diffs_of_sameUpToTextSpace ord t t (sameUpToTextSpace_refl t)).1 path

theorem loopDiffs_self (ord : MapOrder) (t : Node) (path : String) (index : Nat) :
    loopDiffs ord t t path index = [] :=
  (diffs_of_sameUpToTextSpace ord t t (sameUpToTextSpace_refl t)).2 path index

theorem treeDiffs_element_same (ord : MapOrder) (d : String) (a : List Attribute)
    (fc ns1 ns2 : Node) (path : String) :
    treeDiffs ord (.mk ElementNode d a fc ns1) (.mk ElementNode d a fc ns2) path = [] := by
  rw [treeDiffs_mk_mk]
  simp [attrDiffs_self, loopDiffs_self]

theorem toString_two : toString (2 : Nat) = "2" := by decide

/-- C2 (as amended). For every element parent whose old child list is `[A, B]`
and whose new child list is `[A, B, C]`, with `A` of any node kind and `B` an
element, `compareTrees` yields exactly one record: the Added record of `C` at
child index 2 of the parent; no record is produced for child indices 0 and 1. -/
theorem C2_added_child_after_element (ord : MapOrder) (tag : String) (attrs : List Attribute)
    (ns ns' : Node) (tA : NodeType) (dA : String) (aA : List Attribute) (fcA : Node)
    (dB : String) (aB : List Attribute) (fcB : Node)
    (tC : NodeType) (dC : String) (aC : List Attribute) (fcC : Node) (p : String) :
    compareTrees ord
      (.mk ElementNode tag attrs
        (.mk tA dA aA fcA (.mk ElementNode dB aB fcB .nil)) ns)
      (.mk ElementNode tag attrs
        (.mk tA dA aA fcA (.mk ElementNode dB aB fcB (.mk tC dC aC fcC .nil))) ns') p
      = .ok [{ Typ := .Added, Path := p ++ "/" ++ tag ++ "[2]", Old := "",
               New := nodeToString (.mk tC dC aC fcC .nil),
               Message := "Node added at " ++ (p ++ "/" ++ tag ++ "[2]") }] := by
  have hB : ∀ path, treeDiffs ord (.mk ElementNode dB aB fcB .nil)
      (.mk ElementNode dB aB fcB (.mk tC dC aC fcC .nil)) path = [] :=
    fun path => treeDiffs_element_same ord dB aB fcB _ _ path
  have hA : ∀ path, treeDiffs ord (.mk tA dA aA fcA (.mk ElementNode dB aB fcB .nil))
      (.mk tA dA aA fcA (.mk ElementNode dB aB fcB (.mk tC dC aC fcC .nil))) path = [] := by
    intro path
    rw [treeDiffs_mk_mk]
    by_cases he : tA = ElementNode
    · simp [he, attrDiffs_self, loopDiffs_self]
    · by_cases hx : tA = TextNode <;> simp [he, hx, hB]
  have e2 : p ++ "/" ++ tag ++ "[" ++ "2" ++ "]" = p ++ "/" ++ tag ++ "[2]" := by
    simp only [String.append_assoc]
    rfl
  rw [compareTrees_eq, treeDiffs_mk_mk]
  simp only [ne_eq, not_true_eq_false, if_false, if_true, attrDiffs_self, List.nil_append]
  rw [loopDiffs_step _ _ _ _ _ (Or.inl (by simp)), hA]
  simp only [Node.advance, List.nil_append]
  rw [loopDiffs_step _ _ _ _ _ (Or.inl (by simp)), hB]
  simp only [Node.advance, List.nil_append]
  rw [loopDiffs_step _ _ _ _ _ (Or.inr (by simp))]
  simp only [Node.advance, treeDiffs_nil_mk, loopDiffs_nil_nil, List.append_nil, zero_add,
    Nat.reduceAdd, toString_two, e2]

/-- C2 (counterexample). With three text children the parent `[a, b]` against
`[a, b, c]` yields three Added records, at child indices 0, 1 and 2: the text
branch of `compareTrees` walks on to the next siblings and the child walk of
`compareChildren` visits them again. -/
theorem C2_text_children_counterexample :
    compareTrees insertionOrder
      (.mk ElementNode "p" []
        (.mk TextNode "a" [] .nil (.mk TextNode "b" [] .nil .nil)) .nil)
      (.mk ElementNode "p" []
        (.mk TextNode "a" [] .nil (.mk TextNode "b" [] .nil (.mk TextNode "c" [] .nil .nil))) .nil)
      ""
      = .ok [{ Typ := .Added, Path := "/p[0]", Old := "", New := "c",
               Message := "Node added at /p[0]" },
             { Typ := .Added, Path := "/p[1]", Old := "", New := "c",
               Message := "Node added at /p[1]" },
             { Typ := .Added, Path := "/p[2]", Old := "", New := "c",
               Message := "Node added at /p[2]" }] := by
  rw [compareTrees_eq]
  simp [treeDiffs_mk_mk, loopDiffs_step, Node.advance, attrDiffs, buildAttrs, insertionOrder,
    nodeToString]
  decide

/-! ## C3: the two directions -/

theorem flatMap_key {β : Type} (m : AttrMap) (h : (AttrMap.keys m).Nodup) (k : String)
    (G : String → String → List β) :
    m.flatMap (fun e => if k = e.1 then G e.1 e.2 else [])
      = match AttrMap.lookup m k with
        | some v => G k v
        | none => [] := by
  induction m with
  | nil => simp [AttrMap.lookup]
  | cons e m ih =>
    obtain ⟨k', v'⟩ := e
    simp only [AttrMap.keys, List.map_cons, List.nodup_cons] at h
    by_cases hk : k' = k
    · subst hk
      have hrest : m.flatMap (fun e => if k' = e.1 then G e.1 e.2 else []) = [] := by
        rw [List.flatMap_eq_nil_iff]
        intro e he
        have hne : ¬ k' = e.1 := fun hc => h.1 (List.mem_map.mpr ⟨e, he, hc.symm⟩)
        simp [hne]
      simp [AttrMap.lookup, hrest]
    · have hk' : ¬ k = k' := fun e => hk e.symm
      have ih := ih h.2
      simp only [AttrMap.keys] at ih
      simp [AttrMap.lookup, hk, hk', ih]

theorem join_comm {β : Type} (m1 m2 : AttrMap) (h1 : (AttrMap.keys m1).Nodup)
    (h2 : (AttrMap.keys m2).Nodup) (F : String → String → String → List β) :
    (m1.flatMap (fun e => match AttrMap.lookup m2 e.1 with
        | some v2 => F e.1 e.2 v2
        | none => [])).Perm
      (m2.flatMap (fun e => match AttrMap.lookup m1 e.1 with
        | some v1 => F e.1 v1 e.2
        | none => [])) := by
  induction m1 with
  | nil => simp [AttrMap.lookup]
  | cons e m1 ih =>
    obtain ⟨k, v⟩ := e
    simp only [AttrMap.keys, List.map_cons, List.nodup_cons] at h1
    have hnone : AttrMap.lookup m1 k = none := (AttrMap.lookup_eq_none m1 k).mpr h1.1
    have hfun : (fun e : String × String => match AttrMap.lookup ((k, v) :: m1) e.1 with
        | some v1 => F e.1 v1 e.2
        | none => [])
        = fun e => (if k = e.1 then F e.1 v e.2 else []) ++
            (match AttrMap.lookup m1 e.1 with
              | some v1 => F e.1 v1 e.2
              | none => []) := by
      funext e
      by_cases hk : k = e.1
      · subst hk
        simp [AttrMap.lookup, hnone]
      · simp [AttrMap.lookup, hk]
    rw [hfun, List.flatMap_cons]
    refine List.Perm.trans ?_ (List.flatMap_append_perm m2 _ _)
    rw [flatMap_key m2 h2 k (fun k' v2 => F k' v v2)]
    exact List.Perm.append (List.Perm.refl _) (ih h1.2)

theorem attrDiffs_mirror {α : Type} (f : String → α) (ord1 ord2 : MapOrder)
    (a1 a2 : List Attribute) (p q : String)
    (hf : ∀ s, f (p ++ s) = f (q ++ s)) :
    ((attrDiffs ord1 a1 a2 p).map (Diff.swappedView f)).Perm
      ((attrDiffs ord2 a2 a1 q).map (Diff.view f)) := by
  have n1 := buildAttrs_nodup a1
  have n2 := buildAttrs_nodup a2
  unfold attrDiffs
  generalize buildAttrs a1 = m1 at n1 ⊢
  generalize buildAttrs a2 = m2 at n2 ⊢
  have hk : ∀ k : String, f (p ++ "[@" ++ k ++ "]") = f (q ++ "[@" ++ k ++ "]") := by
    intro k
    simpa only [String.append_assoc] using hf ("[@" ++ (k ++ "]"))
  let F : String → String → String → List (DiffType × α × String × String) :=
    fun k x1 x2 => if x1 ≠ x2 then [(DiffType.Modified, f (q ++ "[@" ++ k ++ "]"), x2, x1)] else []
  have hL : ∀ e : String × String,
      (removedOrModifiedAt m2 p e).map (Diff.swappedView f)
        = (addedAttrAt m2 q e).map (Diff.view f) ++
          (match AttrMap.lookup m2 e.1 with
            | some v2 => F e.1 e.2 v2
            | none => []) := by
    intro e
    unfold removedOrModifiedAt removedOrModified addedAttrAt addedAttr
    cases hl : AttrMap.lookup m2 e.1 with
    | none => simp [Diff.swappedView, Diff.view, DiffType.flip, hk]
    | some v2 =>
      by_cases hv : e.2 = v2 <;> simp [Diff.swappedView, DiffType.flip, hk, hv, F]
  have hR : ∀ e : String × String,
      (removedOrModifiedAt m1 q e).map (Diff.view f)
        = (addedAttrAt m1 p e).map (Diff.swappedView f) ++
          (match AttrMap.lookup m1 e.1 with
            | some v1 => F e.1 v1 e.2
            | none => []) := by
    intro e
    unfold removedOrModifiedAt removedOrModified addedAttrAt addedAttr
    cases hl : AttrMap.lookup m1 e.1 with
    | none => simp [Diff.swappedView, Diff.view, DiffType.flip, hk]
    | some v1 =>
      by_cases hv : e.2 = v1
      · simp [hv, F]
      · have hv' : ¬ v1 = e.2 := fun h => hv h.symm
        simp [Diff.view, hv, hv', F]
  simp only [List.map_append, List.map_flatMap, hL, hR]
  have s1 := (List.Perm.flatMap_right (fun e : String × String =>
      (addedAttrAt m2 q e).map (Diff.view f) ++
        (match AttrMap.lookup m2 e.1 with
          | some v2 => F e.1 e.2 v2
          | none => [])) (ord1.perm 1 p m1)).trans (List.flatMap_append_perm m1 _ _).symm
  have s2 := List.Perm.flatMap_right (fun e : String × String =>
      (addedAttrAt m1 p e).map (Diff.swappedView f)) (ord1.perm 2 p m2)
  have s3 := (List.Perm.flatMap_right (fun e : String × String =>
      (addedAttrAt m1 p e).map (Diff.swappedView f) ++
        (match AttrMap.lookup m1 e.1 with
          | some v1 => F e.1 v1 e.2
          | none => [])) (ord2.perm 1 q m2)).trans (List.flatMap_append_perm m2 _ _).symm
  have s4 := List.Perm.flatMap_right (fun e : String × String =>
      (addedAttrAt m2 q e).map (Diff.view f)) (ord2.perm 2 q m1)
  have s5 := join_comm m1 m2 n1 n2 F
  refine ((s1.append s2).trans ?_).trans (s3.append s4).symm
  refine ((List.Perm.append_left _ s5).append_right _).trans ?_
  refine List.perm_append_comm.trans ?_
  rw [List.append_assoc]
  exact List.Perm.append_left _ List.perm_append_comm

theorem noTagChange_loop (c1 c2 : Node) (h : noTagChange true c1 c2 = true) :
    noTagChange false c1 c2 = true ∧ noTagChange true c1.advance c2.advance = true := by
  cases c1 with
  | nil => cases c2 <;> simp [noTagChange, Node.advance]
  | mk t1 d1 a1 fc1 ns1 =>
    cases c2 with
    | nil => simp [noTagChange, Node.advance]
    | mk t2 d2 a2 fc2 ns2 =>
      simp only [noTagChange, Bool.and_eq_true, Bool.or_eq_true, Bool.not_true,
        Bool.false_eq_true, false_or] at h
      simp [noTagChange, Node.advance, h.1, h.2]

theorem mirror_perm {α : Type} (f : String → α) (ord1 ord2 : MapOrder) (a b : Node) :
    (∀ p q, (∀ s, f (p ++ s) = f (q ++ s)) →
      (noTagChange false a b = true ∨ ∀ x y, f x = f y) →
      ((treeDiffs ord1 a b p).map (Diff.swappedView f)).Perm
        ((treeDiffs ord2 b a q).map (Diff.view f))) ∧
    (∀ p q i, (∀ s, f (p ++ s) = f (q ++ s)) →
      (noTagChange true a b = true ∨ ∀ x y, f x = f y) →
      ((loopDiffs ord1 a b p i).map (Diff.swappedView f)).Perm
        ((loopDiffs ord2 b a q i).map (Diff.view f))) := by
  refine pair_induction
    (P := fun a b => ∀ p q, (∀ s, f (p ++ s) = f (q ++ s)) →
      (noTagChange false a b = true ∨ ∀ x y, f x = f y) →
      ((treeDiffs ord1 a b p).map (Diff.swappedView f)).Perm
        ((treeDiffs ord2 b a q).map (Diff.view f)))
    (Q := fun a b => ∀ p q i, (∀ s, f (p ++ s) = f (q ++ s)) →
      (noTagChange true a b = true ∨ ∀ x y, f x = f y) →
      ((loopDiffs ord1 a b p i).map (Diff.swappedView f)).Perm
        ((loopDiffs ord2 b a q i).map (Diff.view f)))
    ?_ ?_ ?_ ?_ ?_ a b
  · intro b p q hf _
    have h0 : f p = f q := by simpa using hf ""
    cases b <;> simp [Diff.swappedView, Diff.view, DiffType.flip, h0]
  · intro a p q hf _
    have h0 : f p = f q := by simpa using hf ""
    cases a <;> simp [Diff.swappedView, Diff.view, DiffType.flip, h0]
  · intro t1 d1 a1 fc1 ns1 t2 d2 a2 fc2 ns2 hQ hP p q hf hc
    have h0 : f p = f q := by simpa using hf ""
    rw [treeDiffs_mk_mk, treeDiffs_mk_mk]
    by_cases ht : t1 = t2
    · subst ht
      by_cases he : t1 = ElementNode
      · subst he
        have hf' : ∀ s, f (p ++ "/" ++ d1 ++ s) = f (q ++ "/" ++ d2 ++ s) := by
          intro s
          rcases hc with hc | hc
          · simp only [noTagChange, ne_eq, not_true_eq_false, if_false, if_true,
              Bool.and_eq_true, decide_eq_true_eq] at hc
            rw [← hc.1.1]
            simpa only [String.append_assoc] using hf ("/" ++ (d1 ++ s))
          · exact hc _ _
        have hc' : noTagChange true fc1 fc2 = true ∨ ∀ x y, f x = f y := by
          rcases hc with hc | hc
          · simp only [noTagChange, ne_eq, not_true_eq_false, if_false, if_true,
              Bool.and_eq_true, decide_eq_true_eq] at hc
            exact Or.inl hc.1.2
          · exact Or.inr hc
        have hA := attrDiffs_mirror f ord1 ord2 a1 a2 _ _ hf'
        have hC := hQ (p ++ "/" ++ d1) (q ++ "/" ++ d2) 0 hf' hc'
        have hT : (List.map (Diff.swappedView f)
            (if d1 ≠ d2 then
              [{ Typ := .Modified, Path := p ++ "/" ++ d1, Old := d1, New := d2,
                 Message := "Tag changed from <" ++ d1 ++ "> to <" ++ d2 ++ ">" }]
             else [])).Perm
          (List.map (Diff.view f)
            (if d2 ≠ d1 then
              [{ Typ := .Modified, Path := q ++ "/" ++ d2, Old := d2, New := d1,
                 Message := "Tag changed from <" ++ d2 ++ "> to <" ++ d1 ++ ">" }]
             else [])) := by
          by_cases hd : d1 = d2
          · simp [hd]
          · have hd' : ¬ d2 = d1 := fun h => hd h.symm
            have := hf' ""
            simp only [String.append_empty] at this
            simp [hd, hd', Diff.swappedView, Diff.view, DiffType.flip, this]
        simp only [ne_eq, not_true_eq_false, if_false, if_true, List.map_append]
        exact (hT.append hA).append hC
      · have hc' : noTagChange false ns1 ns2 = true ∨ ∀ x y, f x = f y := by
          rcases hc with hc | hc
          · simp only [noTagChange, ne_eq, not_true_eq_false, if_false, he,
              Bool.and_eq_true] at hc
            exact Or.inl hc.1
          · exact Or.inr hc
        have hS := hP p q hf hc'
        by_cases hx : t1 = TextNode
        · subst hx
          have hne : ¬ TextNode = ElementNode := by decide
          simp only [ne_eq, not_true_eq_false, if_false, hne, if_true, List.map_append]
          refine List.Perm.append ?_ hS
          by_cases hd : TrimSpace d1 = TrimSpace d2
          · simp [hd]
          · have hd' : ¬ TrimSpace d2 = TrimSpace d1 := fun h => hd h.symm
            by_cases h1 : TrimSpace d1 = "" <;> by_cases h2 : TrimSpace d2 = "" <;>
              simp_all [Diff.swappedView, Diff.view, DiffType.flip]
        · simpa [he, hx] using hS
    · have ht' : ¬ t2 = t1 := fun h => ht h.symm
      simp [ht, ht', Diff.swappedView, Diff.view, DiffType.flip, h0]
  · intro p q i _ _
    simp
  · intro c1 c2 hn hP hQ p q i hf hc
    have hn' : c2 ≠ .nil ∨ c1 ≠ .nil := hn.symm
    rw [loopDiffs_step ord1 c1 c2 p i hn, loopDiffs_step ord2 c2 c1 q i hn']
    have hf' : ∀ s, f (p ++ "[" ++ toString i ++ "]" ++ s)
        = f (q ++ "[" ++ toString i ++ "]" ++ s) := by
      intro s
      simpa only [String.append_assoc] using hf ("[" ++ (toString i ++ ("]" ++ s)))
    have hc1 : noTagChange false c1 c2 = true ∨ ∀ x y, f x = f y :=
      hc.imp (fun h => (noTagChange_loop c1 c2 h).1) id
    have hc2 : noTagChange true c1.advance c2.advance = true ∨ ∀ x y, f x = f y :=
      hc.imp (fun h => (noTagChange_loop c1 c2 h).2) id
    simp only [List.map_append]
    exact (hP _ _ hf' hc1).append (hQ p q (i + 1) hf hc2)

/-- C3 (as amended). For every pair of trees and every path the records of
`compareTrees(old, new, p)` and of `compareTrees(new, old, p)` are a symmetric
relabeling of each other in type and values: every Added record corresponds to
a Removed record of the other direction and vice versa, every Modified record
to a Modified record with Old and New exchanged. The corresponding records
also lie at the same path provided no two compared elements differ in their
tag (the path of an element is built from the tag of the first tree). -/
theorem C3_symmetric_relabeling (ord1 ord2 : MapOrder) (old new : Node) (p : String) :
    ∃ fwd bwd, compareTrees ord1 old new p = .ok fwd ∧ compareTrees ord2 new old p = .ok bwd ∧
      (fwd.map (Diff.swappedView fun _ => ())).Perm (bwd.map (Diff.view fun _ => ())) ∧
      (noTagChange false old new = true →
        (fwd.map (Diff.swappedView id)).Perm (bwd.map (Diff.view id))) :=
  ⟨treeDiffs ord1 old new p, treeDiffs ord2 new old p, compareTrees_eq _ _ _ _,
    compareTrees_eq _ _ _ _,
    (mirror_perm (fun _ => ()) ord1 ord2 old new).1 p p (fun _ => rfl) (Or.inr fun _ _ => rfl),
    fun h => (mirror_perm id ord1 ord2 old new).1 p p (fun _ => rfl) (Or.inl h)⟩

/-- C3 (witness). The paragraph `<p class="x">Hello</p>` against
`<p id="y">Bye</p><!-- c -->`, in two different iteration orders. -/
theorem C3_symmetric_relabeling_witness :
    noTagChange false
      (.mk ElementNode "p" [⟨"", "class", "x"⟩] (.mk TextNode "Hello" [] .nil .nil) .nil)
      (.mk ElementNode "p" [⟨"", "id", "y"⟩]
        (.mk TextNode "Bye" [] .nil (.mk CommentNode " c " [] .nil .nil)) .nil) = true ∧
    ∃ fwd bwd,
      compareTrees insertionOrder
        (.mk ElementNode "p" [⟨"", "class", "x"⟩] (.mk TextNode "Hello" [] .nil .nil) .nil)
        (.mk ElementNode "p" [⟨"", "id", "y"⟩]
          (.mk TextNode "Bye" [] .nil (.mk CommentNode " c " [] .nil .nil)) .nil) "" = .ok fwd ∧
      compareTrees reverseOrder
        (.mk ElementNode "p" [⟨"", "id", "y"⟩]
          (.mk TextNode "Bye" [] .nil (.mk CommentNode " c " [] .nil .nil)) .nil)
        (.mk ElementNode "p" [⟨"", "class", "x"⟩] (.mk TextNode "Hello" [] .nil .nil) .nil)
        "" = .ok bwd ∧
      (fwd.map (Diff.swappedView id)).Perm (bwd.map (Diff.view id)) := by
  obtain ⟨fwd, bwd, h1, h2, _, h4⟩ := C3_symmetric_relabeling insertionOrder reverseOrder
    (.mk ElementNode "p" [⟨"", "class", "x"⟩] (.mk TextNode "Hello" [] .nil .nil) .nil)
    (.mk ElementNode "p" [⟨"", "id", "y"⟩]
      (.mk TextNode "Bye" [] .nil (.mk CommentNode " c " [] .nil .nil)) .nil) ""
  exact ⟨by decide, fwd, bwd, h1, h2, h4 (by decide)⟩

/-- C3 (counterexample). For `<a>` against `<b>` the Modified record of the tag
change lies at path `/a` in one direction and at path `/b` in the other: the
two directions have no record at a common path. -/
theorem C3_tag_change_counterexample :
    compareTrees insertionOrder (.mk ElementNode "a" [] .nil .nil)
        (.mk ElementNode "b" [] .nil .nil) ""
      = .ok [{ Typ := .Modified, Path := "/a", Old := "a", New := "b",
               Message := "Tag changed from <a> to <b>" }] ∧
    compareTrees insertionOrder (.mk ElementNode "b" [] .nil .nil)
        (.mk ElementNode "a" [] .nil .nil) ""
      = .ok [{ Typ := .Modified, Path := "/b", Old := "b", New := "a",
               Message := "Tag changed from <b> to <a>" }] ∧
    ¬ (List.map (Diff.swappedView id)
          [{ Typ := .Modified, Path := "/a", Old := "a", New := "b",
             Message := "Tag changed from <a> to <b>" }]).Perm
        (List.map (Diff.view id)
          [{ Typ := .Modified, Path := "/b", Old := "b", New := "a",
             Message := "Tag changed from <b> to <a>" }]) := by
  refine ⟨?_, ?_, ?_⟩
  · rw [compareTrees_eq]
    simp [treeDiffs_mk_mk, attrDiffs, buildAttrs, insertionOrder]
  · rw [compareTrees_eq]
    simp [treeDiffs_mk_mk, attrDiffs, buildAttrs, insertionOrder]
  · simp [Diff.swappedView, Diff.view, DiffType.flip]

/-! ## C4: one attribute value changed -/

theorem flatMap_single {β : Type} (l : AttrMap) (nd : (AttrMap.keys l).Nodup) (k x : String)
    (hm : (k, x) ∈ l) (g : String × String → List β)
    (hg : ∀ e ∈ l, e.1 ≠ k → g e = []) : l.flatMap g = g (k, x) := by
  induction l with
  | nil => simp at hm
  | cons e l ih =>
    simp only [AttrMap.keys, List.map_cons, List.nodup_cons] at nd
    rw [List.flatMap_cons]
    rcases List.mem_cons.mp hm with he | hl
    · subst he
      have hrest : l.flatMap g = [] := by
        rw [List.flatMap_eq_nil_iff]
        intro e he
        refine hg e (List.mem_cons_of_mem _ he) fun hc => nd.1 ?_
        exact List.mem_map.mpr ⟨e, he, hc⟩
      simp [hrest]
    · have hne : e.1 ≠ k := fun hc => nd.1 (List.mem_map.mpr ⟨(k, x), hl, hc.symm⟩)
      rw [hg e (List.mem_cons_self _ _) hne, List.nil_append]
      exact ih nd.2 hl fun e' he' => hg e' (List.mem_cons_of_mem _ he')

theorem range_nodup (ord : MapOrder) (loop : Nat) (path : String) (m : AttrMap)
    (h : (AttrMap.keys m).Nodup) : (AttrMap.keys (ord.range loop path m)).Nodup :=
  ((ord.perm loop path m).map Prod.fst).nodup_iff.mpr h

/-- C4. Two element nodes with the same tag and the same children whose
attribute maps agree on every key except `k`, which has value `x` in the old
node and value `y ≠ x` in the new node: `compareTrees(old, new, p)` yields
exactly one record, of type Modified, with `Path = p + "/" + tag + "[@" + k + "]"`,
`Old = x` and `New = y`. -/
theorem C4_one_attribute_changed (ord : MapOrder) (tag : String) (a1 a2 : List Attribute)
    (fc ns1 ns2 : Node) (k x y p : String)
    (hx : AttrMap.lookup (buildAttrs a1) k = some x)
    (hy : AttrMap.lookup (buildAttrs a2) k = some y) (hxy : y ≠ x)
    (hrest : ∀ k', k' ≠ k → AttrMap.lookup (buildAttrs a1) k' = AttrMap.lookup (buildAttrs a2) k') :
    compareTrees ord (.mk ElementNode tag a1 fc ns1) (.mk ElementNode tag a2 fc ns2) p
      = .ok [{ Typ := .Modified, Path := p ++ "/" ++ tag ++ "[@" ++ k ++ "]", Old := x, New := y,
               Message := "Attribute '" ++ k ++ "' changed from " ++ x ++ " to " ++ y }] := by
  have n1 := buildAttrs_nodup a1
  have n2 := buildAttrs_nodup a2
  have hxy' : ¬ x = y := fun h => hxy h.symm
  have first : (ord.range 1 (p ++ "/" ++ tag) (buildAttrs a1)).flatMap
      (removedOrModifiedAt (buildAttrs a2) (p ++ "/" ++ tag))
      = removedOrModifiedAt (buildAttrs a2) (p ++ "/" ++ tag) (k, x) := by
    refine flatMap_single _ (range_nodup ord _ _ _ n1) k x ?_ _ ?_
    · exact (mem_range ord _ _ _ _).mpr ((AttrMap.lookup_eq_some _ n1 k x).mp hx)
    · intro e he hne
      have h1 := (AttrMap.lookup_eq_some _ n1 e.1 e.2).mpr ((mem_range ord _ _ _ e).mp he)
      rw [hrest e.1 hne] at h1
      simp [removedOrModifiedAt, removedOrModified, h1]
  have second : (ord.range 2 (p ++ "/" ++ tag) (buildAttrs a2)).flatMap
      (addedAttrAt (buildAttrs a1) (p ++ "/" ++ tag)) = [] := by
    rw [List.flatMap_eq_nil_iff]
    intro e he
    have h2 := (AttrMap.lookup_eq_some _ n2 e.1 e.2).mpr ((mem_range ord _ _ _ e).mp he)
    by_cases hk : e.1 = k
    · simp [addedAttrAt, addedAttr, hk, hx]
    · rw [← hrest e.1 hk] at h2
      simp [addedAttrAt, addedAttr, h2]
  rw [compareTrees_eq, treeDiffs_mk_mk]
  simp [attrDiffs, first, second, loopDiffs_self, removedOrModifiedAt, removedOrModified, hy,
    hxy']

/-- C4 (witness). The link `<a href="x" id="l">t</a>` against
`<a href="y" id="l">t</a>`. -/
theorem C4_one_attribute_changed_witness :
    compareTrees reverseOrder
      (.mk ElementNode "a" [⟨"", "href", "x"⟩, ⟨"", "id", "l"⟩] (.mk TextNode "t" [] .nil .nil)
        .nil)
      (.mk ElementNode "a" [⟨"", "href", "y"⟩, ⟨"", "id", "l"⟩] (.mk TextNode "t" [] .nil .nil)
        .nil) "/body[0]"
      = .ok [{ Typ := .Modified, Path := "/body[0]" ++ "/" ++ "a" ++ "[@" ++ "href" ++ "]",
               Old := "x", New := "y",
               Message := "Attribute '" ++ "href" ++ "' changed from " ++ "x" ++ " to " ++ "y" }] :=
  C4_one_attribute_changed reverseOrder "a" [⟨"", "href", "x"⟩, ⟨"", "id", "l"⟩]
    [⟨"", "href", "y"⟩, ⟨"", "id", "l"⟩] (.mk TextNode "t" [] .nil .nil) .nil .nil
    "href" "x" "y" "/body[0]" (by decide) (by decide) (by decide)
    (by
      intro k' hk
      have hk' : ¬ "href" = k' := fun h => hk h.symm
      simp [buildAttrs, AttrMap.set, AttrMap.lookup, hk'])

/-! ## C5: text is trimmed before it is compared -/

/-- C5. Two text nodes are compared by their trimmed contents: `compareTrees`
emits for the pair no record when the trimmed contents are equal (two
white-space-only nodes included) and exactly one Modified record carrying the
trimmed strings as Old and New when they differ, and then goes on to the next
siblings. Hence two trees that differ only in the leading and trailing white
space of text nodes yield the empty record sequence. -/
theorem C5_text_trimmed_before_compare (ord : MapOrder) (d1 d2 : String)
    (a1 a2 : List Attribute) (fc1 fc2 ns1 ns2 : Node) (p : String) (old new : Node)
    (q : String) :
    (∃ rest, compareTrees ord ns1 ns2 p = .ok rest ∧
      compareTrees ord (.mk TextNode d1 a1 fc1 ns1) (.mk TextNode d2 a2 fc2 ns2) p
        = .ok ((if TrimSpace d1 = TrimSpace d2 then []
                else [{ Typ := .Modified, Path := p, Old := TrimSpace d1, New := TrimSpace d2,
                        Message := "Text changed at " ++ p }]) ++ rest)) ∧
    (sameUpToTextSpace old new = true → compareTrees ord old new q = .ok []) := by
  constructor
  · refine ⟨treeDiffs ord ns1 ns2 p, compareTrees_eq _ _ _ _, ?_⟩
    rw [compareTrees_eq, treeDiffs_mk_mk]
    have hne : ¬ TextNode = ElementNode := by decide
    by_cases hd : TrimSpace d1 = TrimSpace d2
    · simp [hd]
    · by_cases h1 : TrimSpace d1 = "" <;> by_cases h2 : TrimSpace d2 = "" <;> simp_all
  · intro h
    rw [compareTrees_eq, (diffs_of_sameUpToTextSpace ord old new h).1]

/-- C5 (witness). The paragraphs `<p>Hello</p>` and `<p>Hello </p>`, and the
text nodes `Hello` and `Hello ` themselves. -/
theorem C5_text_trimmed_before_compare_witness :
    sameUpToTextSpace
      (.mk ElementNode "p" [] (.mk TextNode "Hello" [] .nil .nil) .nil)
      (.mk ElementNode "p" [] (.mk TextNode "Hello " [] .nil .nil) .nil) = true ∧
    compareTrees insertionOrder
      (.mk ElementNode "p" [] (.mk TextNode "Hello" [] .nil .nil) .nil)
      (.mk ElementNode "p" [] (.mk TextNode "Hello " [] .nil .nil) .nil) "" = .ok [] :=
  ⟨by decide,
    (C5_text_trimmed_before_compare insertionOrder "Hello" "Hello " [] [] .nil .nil .nil .nil ""
      (.mk ElementNode "p" [] (.mk TextNode "Hello" [] .nil .nil) .nil)
      (.mk ElementNode "p" [] (.mk TextNode "Hello " [] .nil .nil) .nil) "").2 (by decide)⟩

/-! ## C6: nil nodes -/

/-- C6. For every path `p`, `compareTrees(nil, nil, p)` is empty; for every
non-nil node `n`, whatever lies below it, `compareTrees(nil, n, p)` is exactly
one Added record with `Path = p` and `New = nodeToString(n)`, and
`compareTrees(n, nil, p)` is exactly one Removed record with `Path = p` and
`Old = nodeToString(n)`. -/
theorem C6_nil_cases (ord : MapOrder) (p : String) (t : NodeType) (d : String)
    (a : List Attribute) (fc ns : Node) :
    compareTrees ord .nil .nil p = .ok [] ∧
    compareTrees ord .nil (.mk t d a fc ns) p
      = .ok [{ Typ := .Added, Path := p, Old := "", New := nodeToString (.mk t d a fc ns),
               Message := "Node added at " ++ p }] ∧
    compareTrees ord (.mk t d a fc ns) .nil p
      = .ok [{ Typ := .Removed, Path := p, Old := nodeToString (.mk t d a fc ns), New := "",
               Message := "Node removed at " ++ p }] := by
  refine ⟨?_, ?_, ?_⟩ <;> simp [compareTrees]

/-! ## C7: the empty side of Added and Removed records -/

theorem attrDiffs_sides (ord : MapOrder) (a1 a2 : List Attribute) (path : String) :
    ∀ d ∈ attrDiffs ord a1 a2 path,
      (d.Typ = .Added → d.Old = "") ∧ (d.Typ = .Removed → d.New = "") := by
  intro d hd
  unfold attrDiffs at hd
  rcases List.mem_append.mp hd with h | h
  · obtain ⟨e, _, he⟩ := List.mem_flatMap.mp h
    unfold removedOrModifiedAt removedOrModified at he
    cases hl : AttrMap.lookup (buildAttrs a2) e.1 with
    | none =>
      simp only [hl, List.nil_append, List.mem_singleton] at he
      subst he
      simp
    | some v2 =>
      by_cases hv : e.2 = v2
      · simp [hl, hv] at he
      · simp only [hl, ne_eq, hv, not_false_eq_true, if_true, List.nil_append,
          List.mem_singleton] at he
        subst he
        simp
  · obtain ⟨e, _, he⟩ := List.mem_flatMap.mp h
    unfold addedAttrAt addedAttr at he
    cases hl : AttrMap.lookup (buildAttrs a1) e.1 with
    | none =>
      simp only [hl, List.nil_append, List.mem_singleton] at he
      subst he
      simp
    | some v1 => simp [hl] at he

theorem diffs_sides (ord : MapOrder) (a b : Node) :
    (∀ p, ∀ d ∈ treeDiffs ord a b p,
      (d.Typ = .Added → d.Old = "") ∧ (d.Typ = .Removed → d.New = "")) ∧
    (∀ p i, ∀ d ∈ loopDiffs ord a b p i,
      (d.Typ = .Added → d.Old = "") ∧ (d.Typ = .Removed → d.New = "")) := by
  refine pair_induction
    (P := fun a b => ∀ p, ∀ d ∈ treeDiffs ord a b p,
      (d.Typ = .Added → d.Old = "") ∧ (d.Typ = .Removed → d.New = ""))
    (Q := fun a b => ∀ p i, ∀ d ∈ loopDiffs ord a b p i,
      (d.Typ = .Added → d.Old = "") ∧ (d.Typ = .Removed → d.New = ""))
    ?_ ?_ ?_ ?_ ?_ a b
  · intro b p d hd
    cases b <;> simp at hd
    subst hd
    simp
  · intro a p d hd
    cases a <;> simp at hd
    subst hd
    simp
  · intro t1 d1 a1 fc1 ns1 t2 d2 a2 fc2 ns2 hQ hP p d hd
    rw [treeDiffs_mk_mk] at hd
    split_ifs at hd with h1 h2 h3 h4 h5
    · simp only [List.mem_singleton] at hd
      subst hd
      simp
    · simp only [List.mem_append, List.mem_singleton] at hd
      rcases hd with (hd | hd) | hd
      · subst hd
        simp
      · exact attrDiffs_sides ord a1 a2 _ d hd
      · exact hQ _ _ d hd
    · simp only [List.nil_append, List.mem_append] at hd
      rcases hd with hd | hd
      · exact attrDiffs_sides ord a1 a2 _ d hd
      · exact hQ _ _ d hd
    · simp only [List.mem_append, List.mem_singleton] at hd
      rcases hd with hd | hd
      · subst hd
        simp
      · exact hP _ d hd
    · simp only [List.nil_append] at hd
      exact hP _ d hd
    · exact hP _ d hd
  · intro p i d hd
    simp at hd
  · intro c1 c2 hn hP hQ p i d hd
    rw [loopDiffs_step ord c1 c2 p i hn] at hd
    rcases List.mem_append.mp hd with hd | hd
    · exact hP _ d hd
    · exact hQ _ _ d hd

/-- C7. For every pair of trees and every path `compareTrees` returns a record
sequence in which every record of type Added has an empty Old value and every
record of type Removed has an empty New value, node-level and attribute-level
records alike. -/
theorem C7_added_removed_sides (ord : MapOrder) (a b : Node) (p : String) :
    ∃ ds, compareTrees ord a b p = .ok ds ∧
      ∀ d ∈ ds, (d.Typ = .Added → d.Old = "") ∧ (d.Typ = .Removed → d.New = "") :=
  ⟨treeDiffs ord a b p, compareTrees_eq ord a b p, (diffs_sides ord a b).1 p⟩

/-- C7 (witness). For `<a x="1">t</a>` against `<a y="2"></a>` the report holds
an Added record (attribute `y`) and Removed records (attribute `x`, the text
child); the former has an empty Old value, the latter an empty New value. -/
theorem C7_added_removed_sides_witness :
    ∃ ds d1 d2,
      compareTrees insertionOrder
        (.mk ElementNode "a" [⟨"", "x", "1"⟩] (.mk TextNode "t" [] .nil .nil) .nil)
        (.mk ElementNode "a" [⟨"", "y", "2"⟩] .nil .nil) "" = .ok ds ∧
      d1 ∈ ds ∧ d1.Typ = .Added ∧ d1.Old = "" ∧ d2 ∈ ds ∧ d2.Typ = .Removed ∧ d2.New = "" := by
  obtain ⟨ds, h, hall⟩ := C7_added_removed_sides insertionOrder
    (.mk ElementNode "a" [⟨"", "x", "1"⟩] (.mk TextNode "t" [] .nil .nil) .nil)
    (.mk ElementNode "a" [⟨"", "y", "2"⟩] .nil .nil) ""
  have hev : compareTrees insertionOrder
      (.mk ElementNode "a" [⟨"", "x", "1"⟩] (.mk TextNode "t" [] .nil .nil) .nil)
      (.mk ElementNode "a" [⟨"", "y", "2"⟩] .nil .nil) ""
      = .ok [{ Typ := .Removed, Path := "/a[@x]", Old := "1", New := "",
               Message := "Attribute 'x' removed" },
             { Typ := .Added, Path := "/a[@y]", Old := "", New := "2",
               Message := "Attribute 'y' added" },
             { Typ := .Removed, Path := "/a[0]", Old := "t", New := "",
               Message := "Node removed at /a[0]" }] := by
    rw [compareTrees_eq]
    simp [treeDiffs_mk_mk, loopDiffs_step, Node.advance, attrDiffs, buildAttrs, AttrMap.set,
      AttrMap.lookup, insertionOrder, removedOrModifiedAt, removedOrModified, addedAttrAt,
      addedAttr, nodeToString]
    decide
  rw [hev] at h
  injection h with h
  subst h
  refine ⟨_, { Typ := .Added, Path := "/a[@y]", Old := "", New := "2",
               Message := "Attribute 'y' added" },
    { Typ := .Removed, Path := "/a[0]", Old := "t", New := "",
      Message := "Node removed at /a[0]" }, hev, by simp, rfl, ?_, by simp, rfl, ?_⟩
  · exact (hall _ (by simp)).1 rfl
  · exact (hall _ (by simp)).2 rfl

/-! ## C8: the rendering of the records -/

theorem renderLoop_eq (ds : List Diff) (i : Nat) (result : String) :
    renderLoop ds i result = result ++ unlines (numberedFrom i ds) := by
  induction ds generalizing i result with
  | nil => simp [renderLoop, numberedFrom, unlines]
  | cons d ds ih => simp [renderLoop, numberedFrom, unlines, ih, String.append_assoc]

theorem ite_ne_of {c : Prop} [Decidable c] {a b x : Char} (ha : a ≠ x) (hb : b ≠ x) :
    (if c then a else b) ≠ x := by
  split <;> assumption

theorem digitChar_ne_newline (m : Nat) : Nat.digitChar m ≠ '\n' := by
  simp only [Nat.digitChar]
  repeat' refine ite_ne_of (by decide) ?_
  decide

theorem toDigitsCore_no_newline (fuel : Nat) :
    ∀ (n : Nat) (ds : List Char), '\n' ∉ ds → '\n' ∉ Nat.toDigitsCore 10 fuel n ds := by
  induction fuel with
  | zero => intro n ds h; simpa [Nat.toDigitsCore] using h
  | succ fuel ih =>
    intro n ds h
    have hd : '\n' ∉ Nat.digitChar (n % 10) :: ds := by
      simp only [List.mem_cons, not_or]
      exact ⟨fun e => digitChar_ne_newline _ e.symm, h⟩
    simp only [Nat.toDigitsCore]
    split_ifs
    · exact hd
    · exact ih _ _ hd

theorem toString_no_newline (n : Nat) : '\n' ∉ (toString n).data := by
  show '\n' ∉ (Nat.repr n).data
  simp only [Nat.repr, Nat.toDigits, List.asString]
  exact toDigitsCore_no_newline _ _ _ (by simp)

theorem linesOf_line (l rest cur : List Char) (h : '\n' ∉ l) :
    linesOf (l ++ '\n' :: rest) cur = String.mk (cur ++ l) :: linesOf rest [] := by
  induction l generalizing cur with
  | nil => simp [linesOf]
  | cons c l ih =>
    simp only [List.mem_cons, not_or] at h
    have hc : ¬ c = '\n' := fun e => h.1 e.symm
    simp [linesOf, hc, ih _ h.2]

theorem terminatedLines_unlines (ls : List String) (h : ∀ l ∈ ls, '\n' ∉ l.data) :
    terminatedLines (unlines ls) = ls := by
  induction ls with
  | nil => simp [terminatedLines, unlines, linesOf]
  | cons l ls ih =>
    have hl := h l (List.mem_cons_self _ _)
    have ih := ih fun l' hl' => h l' (List.mem_cons_of_mem _ hl')
    simp only [terminatedLines] at ih
    have e : (l ++ "\n" ++ unlines ls).data = l.data ++ '\n' :: (unlines ls).data := by
      simp [String.data_append]
    simp only [terminatedLines, unlines, e, linesOf_line _ _ _ hl, List.nil_append, ih]

theorem numberedFrom_no_newline (ds : List Diff) (h : ∀ d ∈ ds, '\n' ∉ d.Message.data) :
    ∀ i, ∀ l ∈ numberedFrom i ds, '\n' ∉ l.data := by
  induction ds with
  | nil => intro i l hl; simp [numberedFrom] at hl
  | cons d ds ih =>
    intro i l hl
    simp only [numberedFrom, List.mem_cons] at hl
    rcases hl with hl | hl
    · subst hl
      have h1 := toString_no_newline (i + 1)
      have h2 := h d (List.mem_cons_self _ _)
      simp only [String.data_append, List.mem_append, not_or]
      exact ⟨⟨h1, by decide⟩, h2⟩
    · exact ih (fun d' hd' => h d' (List.mem_cons_of_mem _ hd')) _ l hl

theorem numberedFrom_length (ds : List Diff) : ∀ i, (numberedFrom i ds).length = ds.length := by
  induction ds with
  | nil => intro i; rfl
  | cons d ds ih => intro i; simp [numberedFrom, ih]

/-- C8 (as amended). For every sequence of records `r_1..r_n`, `diffsToString`
produces the concatenation, for `i = 1..n` in order, of the decimal rendering
of `i`, then `. `, then `r_i.Message`, then a newline; for the empty sequence
the output is the empty string. When no message contains a newline the output
consists of exactly `n` newline-terminated lines, the `i`-th being the decimal
rendering of `i`, then `. `, then `r_i.Message`. -/
theorem C8_diffsToString_numbered (ds : List Diff) :
    diffsToString [] = "" ∧
    diffsToString ds = unlines (numberedFrom 0 ds) ∧
    (numberedFrom 0 ds).length = ds.length ∧
    ((∀ d ∈ ds, '\n' ∉ d.Message.data) →
      terminatedLines (diffsToString ds) = numberedFrom 0 ds) := by
  have h2 : diffsToString ds = unlines (numberedFrom 0 ds) := by
    simp [diffsToString, renderLoop_eq]
  refine ⟨rfl, h2, numberedFrom_length ds 0, fun h => ?_⟩
  · rw [h2]
    exact terminatedLines_unlines _ (numberedFrom_no_newline ds h 0)

/-- C8 (witness). Two records render as two numbered lines. -/
theorem C8_diffsToString_numbered_witness :
    terminatedLines (diffsToString
      [{ Typ := .Added, Path := "/p[0]", Old := "", New := "c", Message := "Node added at /p[0]" },
       { Typ := .Removed, Path := "/p[@id]", Old := "x", New := "",
         Message := "Attribute 'id' removed" }])
      = ["1. Node added at /p[0]", "2. Attribute 'id' removed"] :=
  ((C8_diffsToString_numbered
      [{ Typ := .Added, Path := "/p[0]", Old := "", New := "c", Message := "Node added at /p[0]" },
       { Typ := .Removed, Path := "/p[@id]", Old := "x", New := "",
         Message := "Attribute 'id' removed" }]).2.2.2
    (by decide)).trans (by decide)

/-- C8 (counterexample). For `<a title="x">` against `<a title="y(newline)z">`
the single record renders as two lines: the message embeds the raw attribute
value, newline included. -/
theorem C8_newline_in_message_counterexample :
    compareTrees insertionOrder
      (.mk ElementNode "a" [⟨"", "title", "x"⟩] .nil .nil)
      (.mk ElementNode "a" [⟨"", "title", "y\nz"⟩] .nil .nil) ""
      = .ok [{ Typ := .Modified, Path := "/a[@title]", Old := "x", New := "y\nz",
               Message := "Attribute 'title' changed from x to y\nz" }] ∧
    terminatedLines (diffsToString
      [{ Typ := .Modified, Path := "/a[@title]", Old := "x", New := "y\nz",
         Message := "Attribute 'title' changed from x to y\nz" }])
      = ["1. Attribute 'title' changed from x to y", "z"] := by
  constructor
  · rw [compareTrees_eq]
    simp [treeDiffs_mk_mk, attrDiffs, buildAttrs, AttrMap.set, AttrMap.lookup, insertionOrder,
      removedOrModifiedAt, removedOrModified, addedAttrAt, addedAttr]
  · decide

/-! ## C9: the order of the records -/

theorem attrDiffs_order (ord1 ord2 : MapOrder) (a1 a2 : List Attribute) (path : String) :
    (attrDiffs ord1 a1 a2 path).Perm (attrDiffs ord2 a1 a2 path) := by
  unfold attrDiffs
  exact List.Perm.append
    (List.Perm.flatMap_right _ ((ord1.perm _ _ _).trans (ord2.perm _ _ _).symm))
    (List.Perm.flatMap_right _ ((ord1.perm _ _ _).trans (ord2.perm _ _ _).symm))

theorem diffs_order (ord1 ord2 : MapOrder) (a b : Node) :
    (∀ p, (treeDiffs ord1 a b p).Perm (treeDiffs ord2 a b p)) ∧
    (∀ p i, (loopDiffs ord1 a b p i).Perm (loopDiffs ord2 a b p i)) := by
  refine pair_induction
    (P := fun a b => ∀ p, (treeDiffs ord1 a b p).Perm (treeDiffs ord2 a b p))
    (Q := fun a b => ∀ p i, (loopDiffs ord1 a b p i).Perm (loopDiffs ord2 a b p i))
    ?_ ?_ ?_ ?_ ?_ a b
  · intro b p
    cases b <;> simp
  · intro a p
    cases a <;> simp
  · intro t1 d1 a1 fc1 ns1 t2 d2 a2 fc2 ns2 hQ hP p
    rw [treeDiffs_mk_mk, treeDiffs_mk_mk]
    split_ifs
    · exact List.Perm.refl _
    · exact ((List.Perm.refl _).append (attrDiffs_order ord1 ord2 a1 a2 _)).append (hQ _ _)
    · exact ((List.Perm.refl _).append (attrDiffs_order ord1 ord2 a1 a2 _)).append (hQ _ _)
    · exact (List.Perm.refl _).append (hP _)
    · exact (List.Perm.refl _).append (hP _)
    · exact hP _
  · intro p i
    simp
  · intro c1 c2 hn hP hQ p i
    rw [loopDiffs_step ord1 c1 c2 p i hn, loopDiffs_step ord2 c1 c2 p i hn]
    exact (hP _).append (hQ _ _)

/-- C9 (as amended). For every pair of trees and every path, any two runs of
`compareTrees` on the same inputs produce the same records, each as often in
one run as in the other; their order can differ between the runs with the
iteration order of the attribute maps built in `compareAttributes`. -/
theorem C9_same_records_any_order (ord1 ord2 : MapOrder) (a b : Node) (p : String) :
    ∃ ds1 ds2, compareTrees ord1 a b p = .ok ds1 ∧ compareTrees ord2 a b p = .ok ds2 ∧
      ds1.Perm ds2 :=
  ⟨treeDiffs ord1 a b p, treeDiffs ord2 a b p, compareTrees_eq _ _ _ _, compareTrees_eq _ _ _ _,
    (diffs_order ord1 ord2 a b).1 p⟩

/-- C9 (counterexample). For `<a x="1" y="2">` against `<a>` the two Removed
records come in the order in which `range` visits the map of the old
attributes: two iteration orders give two different record sequences. -/
theorem C9_iteration_order_counterexample :
    compareTrees insertionOrder
      (.mk ElementNode "a" [⟨"", "x", "1"⟩, ⟨"", "y", "2"⟩] .nil .nil)
      (.mk ElementNode "a" [] .nil .nil) ""
      = .ok [{ Typ := .Removed, Path := "/a[@x]", Old := "1", New := "",
               Message := "Attribute 'x' removed" },
             { Typ := .Removed, Path := "/a[@y]", Old := "2", New := "",
               Message := "Attribute 'y' removed" }] ∧
    compareTrees reverseOrder
      (.mk ElementNode "a" [⟨"", "x", "1"⟩, ⟨"", "y", "2"⟩] .nil .nil)
      (.mk ElementNode "a" [] .nil .nil) ""
      = .ok [{ Typ := .Removed, Path := "/a[@y]", Old := "2", New := "",
               Message := "Attribute 'y' removed" },
             { Typ := .Removed, Path := "/a[@x]", Old := "1", New := "",
               Message := "Attribute 'x' removed" }] := by
  constructor
  · rw [compareTrees_eq]
    simp [treeDiffs_mk_mk, attrDiffs, buildAttrs, AttrMap.set, AttrMap.lookup, insertionOrder,
      removedOrModifiedAt, removedOrModified, addedAttrAt, addedAttr]
  · rw [compareTrees_eq]
    simp [treeDiffs_mk_mk, attrDiffs, buildAttrs, AttrMap.set, AttrMap.lookup, reverseOrder,
      removedOrModifiedAt, removedOrModified, addedAttrAt, addedAttr]

/-! ## C10: the due test of the scheduler -/

theorem wrapInt64_of_range (x : Int) (h1 : -2 ^ 63 ≤ x) (h2 : x < 2 ^ 63) : wrapInt64 x = x := by
  unfold wrapInt64
  rw [Int.emod_eq_of_lt (by omega) (by omega)]
  omega

theorem mem_startPass (now : Int) (w : Watched) (ws : List Watched) :
    ∀ i, w ∈ startPass (fun _ => now) i ws ↔ w ∈ ws ∧ w.nextUpdate < now := by
  induction ws with
  | nil => intro i; simp [startPass]
  | cons v ws ih =>
    intro i
    simp only [startPass]
    split_ifs with h
    · simp only [List.mem_cons, ih]
      constructor
      · rintro (e | ⟨hm, hlt⟩)
        · subst e
          exact ⟨Or.inl rfl, h⟩
        · exact ⟨Or.inr hm, hlt⟩
      · rintro ⟨e | hm, hlt⟩
        · exact Or.inl e
        · exact Or.inr ⟨hm, hlt⟩
    · simp only [List.mem_cons, ih]
      constructor
      · rintro ⟨hm, hlt⟩
        exact ⟨Or.inr hm, hlt⟩
      · rintro ⟨e | hm, hlt⟩
        · subst e
          exact absurd hlt h
        · exact ⟨hm, hlt⟩

/-- C10 (as amended). The due test of the scheduler is strict: for every
registry, every target of it and every query time `now` (in seconds), the
target is selected for processing exactly when
`LastUpdate + Interval < now` (the sum within the 64-bit range); a target with
`LastUpdate + Interval = now` is not selected at `now`. -/
theorem C10_due_strictly_before (ws : List Watched) (w : Watched) (now : Int)
    (hlo : -2 ^ 63 ≤ w.LastUpdate.Unix + w.Interval)
    (hhi : w.LastUpdate.Unix + w.Interval < 2 ^ 63) :
    (w ∈ startPass (fun _ => now) 0 ws ↔ w ∈ ws ∧ w.LastUpdate.Unix + w.Interval < now) ∧
    (w.LastUpdate.Unix + w.Interval = now → w ∉ startPass (fun _ => now) 0 ws) := by
  have hn : w.nextUpdate = w.LastUpdate.Unix + w.Interval := wrapInt64_of_range _ hlo hhi
  have hm := mem_startPass now w ws 0
  rw [hn] at hm
  refine ⟨hm, fun he hmem => ?_⟩
  have := (hm.mp hmem).2
  omega

/-- C10 (witness). A target last updated at second 1700000000 with an interval
of 10 seconds is selected at second 1700000011. -/
theorem C10_due_strictly_before_witness :
    ({ Hash := "h", Body := .nil, LastUpdate := ⟨1700000000000000000⟩, Interval := 10,
       Request := ⟨⟨"1", "telegram", "42"⟩, "http://example.org", 0⟩ } : Watched)
      ∈ startPass (fun _ => 1700000011) 0
        [{ Hash := "h", Body := .nil, LastUpdate := ⟨1700000000000000000⟩, Interval := 10,
           Request := ⟨⟨"1", "telegram", "42"⟩, "http://example.org", 0⟩ }] :=
  (C10_due_strictly_before
    [{ Hash := "h", Body := .nil, LastUpdate := ⟨1700000000000000000⟩, Interval := 10,
       Request := ⟨⟨"1", "telegram", "42"⟩, "http://example.org", 0⟩ }]
    { Hash := "h", Body := .nil, LastUpdate := ⟨1700000000000000000⟩, Interval := 10,
      Request := ⟨⟨"1", "telegram", "42"⟩, "http://example.org", 0⟩ }
    1700000011 (by decide) (by decide)).1.mpr ⟨List.mem_singleton.mpr rfl, by decide⟩

/-- C10 (counterexample). A target with `Interval = 0` whose `LastUpdate` is the
query time itself (second 1700000000) has `LastUpdate + Interval <= now` and
is not selected: the pass launches no request. -/
theorem C10_boundary_counterexample :
    ({ Hash := "h", Body := .nil, LastUpdate := ⟨1700000000000000000⟩, Interval := 0,
       Request := ⟨⟨"1", "telegram", "42"⟩, "http://example.org", 0⟩ } : Watched).LastUpdate.Unix
      + 0 ≤ 1700000000 ∧
    startPass (fun _ => 1700000000) 0
      [{ Hash := "h", Body := .nil, LastUpdate := ⟨1700000000000000000⟩, Interval := 0,
         Request := ⟨⟨"1", "telegram", "42"⟩, "http://example.org", 0⟩ }] = [] := by
  constructor
  · decide
  · decide

/-! ## The sorted insertion (C14, C20) -/

theorem searchLoop_spec (f : Nat → Bool) (n : Nat) :
    ∀ d i j, j - i ≤ d → i ≤ j → j ≤ n → (i = 0 ∨ f (i - 1) = false) → (j = n ∨ f j = true) →
      searchLoop f i j ≤ n ∧ (searchLoop f i j = 0 ∨ f (searchLoop f i j - 1) = false) ∧
        (searchLoop f i j = n ∨ f (searchLoop f i j) = true) := by
  intro d
  induction d with
  | zero =>
    intro i j hd hij hjn hi hj
    have e : i = j := by omega
    subst e
    rw [searchLoop]
    simp only [lt_self_iff_false, if_false]
    exact ⟨hjn, hi, hj⟩
  | succ d ih =>
    intro i j hd hij hjn hi hj
    rw [searchLoop]
    by_cases hlt : i < j
    · simp only [hlt, if_true]
      by_cases hf : f ((i + j) / 2) = true
      · simp only [hf, Bool.not_true, Bool.false_eq_true, if_false]
        exact ih i ((i + j) / 2) (by omega) (by omega) (by omega) hi (Or.inr hf)
      · have hf' : f ((i + j) / 2) = false := by simpa using hf
        simp only [hf', Bool.not_false, if_true]
        exact ih ((i + j) / 2 + 1) j (by omega) (by omega) hjn
          (Or.inr (by simpa using hf')) hj
    · have e : i = j := by omega
      subst e
      simp only [lt_self_iff_false, if_false]
      exact ⟨hjn, hi, hj⟩

theorem Search_spec (n : Nat) (f : Nat → Bool) :
    Search n f ≤ n ∧ (Search n f = 0 ∨ f (Search n f - 1) = false) ∧
      (Search n f = n ∨ f (Search n f) = true) :=
  searchLoop_spec f n n 0 n (by omega) (by omega) (le_refl n) (Or.inl rfl) (Or.inl rfl)

/-- The position at which `Insert` puts the target. -/
theorem Insert_eq (s : WatcherService) (w : Watched) :
    ∃ idx, idx ≤ s.WatchedUrls.length ∧
      (s.Insert w).WatchedUrls = s.WatchedUrls.take idx ++ w :: s.WatchedUrls.drop idx ∧
      (idx = 0 ∨ ∃ x, s.WatchedUrls[idx - 1]? = some x ∧
        x.LastUpdate.nanos ≤ w.LastUpdate.nanos) ∧
      (idx = s.WatchedUrls.length ∨ ∃ x, s.WatchedUrls[idx]? = some x ∧
        w.LastUpdate.nanos < x.LastUpdate.nanos) := by
  obtain ⟨h1, h2, h3⟩ := Search_spec s.WatchedUrls.length (fun (i : Nat) =>
    match s.WatchedUrls[i]? with
    | some x => x.LastUpdate.After w.LastUpdate
    | none => false)
  have hI : (s.Insert w).WatchedUrls
      = s.WatchedUrls.take (Search s.WatchedUrls.length (fun (i : Nat) =>
          match s.WatchedUrls[i]? with
          | some x => x.LastUpdate.After w.LastUpdate
          | none => false)) ++ w :: s.WatchedUrls.drop (Search s.WatchedUrls.length
            (fun (i : Nat) =>
              match s.WatchedUrls[i]? with
              | some x => x.LastUpdate.After w.LastUpdate
              | none => false)) := rfl
  generalize Search s.WatchedUrls.length (fun (i : Nat) =>
    match s.WatchedUrls[i]? with
    | some x => x.LastUpdate.After w.LastUpdate
    | none => false) = idx at h1 h2 h3 hI
  refine ⟨idx, h1, hI, ?_, ?_⟩
  · rcases h2 with h2 | h2
    · exact Or.inl h2
    · by_cases h0 : idx = 0
      · exact Or.inl h0
      · right
        cases hx : s.WatchedUrls[idx - 1]? with
        | none =>
          have := List.getElem?_eq_none_iff.mp hx
          omega
        | some x =>
          simp only [hx, Time.After, decide_eq_false_iff_not, not_lt] at h2
          exact ⟨x, rfl, h2⟩
  · rcases h3 with h3 | h3
    · exact Or.inl h3
    · right
      cases hx : s.WatchedUrls[idx]? with
      | none => simp [hx] at h3
      | some x =>
        simp only [hx, Time.After, decide_eq_true_eq] at h3
        exact ⟨x, rfl, h3⟩

theorem take_bound (key : Watched → Int) (ws : List Watched) (w : Watched) (idx : Nat)
    (hs : ws.Pairwise fun a b => key a ≤ key b)
    (hlo : idx = 0 ∨ ∃ x, ws[idx - 1]? = some x ∧ key x ≤ key w) :
    ∀ x ∈ ws.take idx, key x ≤ key w := by
  intro x hx
  obtain ⟨k, hk, rfl⟩ := List.getElem_of_mem hx
  rw [List.getElem_take]
  rw [List.length_take] at hk
  rcases hlo with h0 | ⟨y, hy, hyw⟩
  · omega
  · obtain ⟨hlt, hy⟩ := List.getElem?_eq_some.mp hy
    subst hy
    by_cases hki : k = idx - 1
    · subst hki
      exact hyw
    · exact le_trans (List.pairwise_iff_getElem.mp hs k (idx - 1) (by omega) hlt (by omega)) hyw

theorem drop_bound (key : Watched → Int) (U : Int → Int → Prop)
    (hU : ∀ a b c, U a b → b ≤ c → U a c) (ws : List Watched) (w : Watched) (idx : Nat)
    (hs : ws.Pairwise fun a b => key a ≤ key b)
    (hhi : idx = ws.length ∨ ∃ x, ws[idx]? = some x ∧ U (key w) (key x)) :
    ∀ x ∈ ws.drop idx, U (key w) (key x) := by
  intro x hx
  obtain ⟨k, hk, rfl⟩ := List.getElem_of_mem hx
  rw [List.getElem_drop]
  rw [List.length_drop] at hk
  rcases hhi with h0 | ⟨y, hy, hyw⟩
  · omega
  · obtain ⟨hlt, hy⟩ := List.getElem?_eq_some.mp hy
    subst hy
    by_cases hki : k = 0
    · subst hki
      exact hyw
    · exact hU _ _ _ hyw
        (List.pairwise_iff_getElem.mp hs idx (idx + k) hlt (by omega) (by omega))

theorem insert_pairwise (key : Watched → Int) (ws : List Watched) (w : Watched) (idx : Nat)
    (hs : ws.Pairwise fun a b => key a ≤ key b)
    (hpre : ∀ x ∈ ws.take idx, key x ≤ key w) (hpost : ∀ x ∈ ws.drop idx, key w ≤ key x) :
    (ws.take idx ++ w :: ws.drop idx).Pairwise fun a b => key a ≤ key b := by
  rw [List.pairwise_append, List.pairwise_cons]
  refine ⟨hs.sublist (List.take_sublist _ _), ⟨hpost, hs.sublist (List.drop_sublist _ _)⟩, ?_⟩
  intro a ha b hb
  rcases List.mem_cons.mp hb with e | hb
  · subst e
    exact hpre a ha
  · exact le_trans (hpre a ha) (hpost b hb)

theorem Unix_mono (t u : Time) (h : t.nanos ≤ u.nanos) : t.Unix ≤ u.Unix :=
  Int.ediv_le_ediv (by decide) h

/-- C14 (as amended). For every registry that is sorted ascending by dueAt
(`LastUpdate + Interval`) and every target `w` with the same Interval as the
targets of the registry (`Register` gives every target the Interval 10), the
sequence after `Insert(w)` is again sorted ascending by dueAt. -/
theorem C14_insert_sorted_by_dueAt (s : WatcherService) (w : Watched)
    (hs : SortedByDueAt s.WatchedUrls) (hI : ∀ x ∈ s.WatchedUrls, x.Interval = w.Interval) :
    SortedByDueAt (s.Insert w).WatchedUrls := by
  obtain ⟨idx, _, hI', hlo, hhi⟩ := Insert_eq s w
  rw [SortedByDueAt, hI']
  have hlo' : idx = 0 ∨ ∃ x, s.WatchedUrls[idx - 1]? = some x ∧ x.dueAt ≤ w.dueAt := by
    rcases hlo with h | ⟨x, hx, hle⟩
    · exact Or.inl h
    · refine Or.inr ⟨x, hx, ?_⟩
      have := hI x (List.getElem?_mem hx)
      have := Unix_mono _ _ hle
      simp only [Watched.dueAt]
      omega
  have hhi' : idx = s.WatchedUrls.length ∨
      ∃ x, s.WatchedUrls[idx]? = some x ∧ w.dueAt ≤ x.dueAt := by
    rcases hhi with h | ⟨x, hx, hlt⟩
    · exact Or.inl h
    · refine Or.inr ⟨x, hx, ?_⟩
      have := hI x (List.getElem?_mem hx)
      have := Unix_mono _ _ (le_of_lt hlt)
      simp only [Watched.dueAt]
      omega
  exact insert_pairwise Watched.dueAt _ w idx hs
    (take_bound Watched.dueAt _ w idx hs hlo')
    (drop_bound Watched.dueAt (· ≤ ·) (fun _ _ _ h1 h2 => le_trans h1 h2) _ w idx hs hhi')

/-- C20. For every registry `L` sorted ascending by LastUpdate and every target
`w`, `Insert(w)` yields a sequence of length `|L| + 1` that is sorted ascending
by LastUpdate and is `L` with `w` inserted at one position: `L = pre ++ post`
and the result is `pre ++ w :: post`, where no entry of `pre` has a LastUpdate
after that of `w` (ties go before `w`) and every entry of `post` has. -/
theorem C20_insert_position (s : WatcherService) (w : Watched)
    (hs : SortedByLastUpdate s.WatchedUrls) :
    ∃ pre post, s.WatchedUrls = pre ++ post ∧ (s.Insert w).WatchedUrls = pre ++ w :: post ∧
      (∀ x ∈ pre, x.LastUpdate.After w.LastUpdate = false) ∧
      (∀ x ∈ post, x.LastUpdate.After w.LastUpdate = true) ∧
      (s.Insert w).WatchedUrls.length = s.WatchedUrls.length + 1 ∧
      SortedByLastUpdate (s.Insert w).WatchedUrls := by
  obtain ⟨idx, _, hI, hlo, hhi⟩ := Insert_eq s w
  have hpre := take_bound (fun x => x.LastUpdate.nanos) _ w idx hs hlo
  have hpost := drop_bound (fun x => x.LastUpdate.nanos) (· < ·)
    (fun _ _ _ h1 h2 => lt_of_lt_of_le h1 h2) _ w idx hs hhi
  refine ⟨s.WatchedUrls.take idx, s.WatchedUrls.drop idx, (List.take_append_drop _ _).symm, hI,
    ?_, ?_, ?_, ?_⟩
  · intro x hx
    simpa [Time.After] using hpre x hx
  · intro x hx
    simpa [Time.After] using hpost x hx
  · rw [hI, List.length_append, List.length_cons, ← Nat.add_assoc, ← List.length_append,
      List.take_append_drop]
  · rw [SortedByLastUpdate, hI]
    exact insert_pairwise (fun x => x.LastUpdate.nanos) _ w idx hs hpre
      fun x hx => le_of_lt (hpost x hx)

/-- C14 (witness). Three targets with Interval 10: the one last updated at
second 20 is inserted between those of seconds 0 and 50. -/
theorem C14_insert_sorted_by_dueAt_witness :
    SortedByDueAt [targetAt "a" 0 10, targetAt "b" 50 10] ∧
    SortedByDueAt ((watcherOf [targetAt "a" 0 10, targetAt "b" 50 10] (.nil, none)
      (some "h")).Insert (targetAt "c" 20 10)).WatchedUrls :=
  ⟨by decide,
    C14_insert_sorted_by_dueAt
      (watcherOf [targetAt "a" 0 10, targetAt "b" 50 10] (.nil, none) (some "h"))
      (targetAt "c" 20 10) (by decide) (by decide)⟩

/-- C14 (counterexample). The registry holds one target last updated at second
0 with Interval 100 (due at 100); the target last updated at second 50 with
Interval 10 (due at 60) is inserted behind it, by LastUpdate, and the registry
is no longer sorted by dueAt. -/
theorem C14_mixed_intervals_counterexample :
    SortedByDueAt [targetAt "a" 0 100] ∧
    ((watcherOf [targetAt "a" 0 100] (.nil, none) (some "h")).Insert
      (targetAt "b" 50 10)).WatchedUrls = [targetAt "a" 0 100, targetAt "b" 50 10] ∧
    ¬ SortedByDueAt [targetAt "a" 0 100, targetAt "b" 50 10] := by
  refine ⟨by decide, ?_, by decide⟩
  simp [WatcherService.Insert, Search, searchLoop, watcherOf, targetAt, Time.After]

/-- C20 (witness). A target last updated at second 50 is inserted behind the
target of the same second and before that of second 70. -/
theorem C20_insert_position_witness :
    SortedByLastUpdate [targetAt "a" 0 10, targetAt "b" 50 10, targetAt "c" 70 10] ∧
    ∃ pre post, [targetAt "a" 0 10, targetAt "b" 50 10, targetAt "c" 70 10] = pre ++ post ∧
      ((watcherOf [targetAt "a" 0 10, targetAt "b" 50 10, targetAt "c" 70 10] (.nil, none)
        (some "h")).Insert (targetAt "d" 50 10)).WatchedUrls
        = pre ++ targetAt "d" 50 10 :: post ∧
      (∀ x ∈ pre, x.LastUpdate.After (targetAt "d" 50 10).LastUpdate = false) ∧
      (∀ x ∈ post, x.LastUpdate.After (targetAt "d" 50 10).LastUpdate = true) ∧
      ((watcherOf [targetAt "a" 0 10, targetAt "b" 50 10, targetAt "c" 70 10] (.nil, none)
        (some "h")).Insert (targetAt "d" 50 10)).WatchedUrls.length = 3 + 1 ∧
      SortedByLastUpdate
        ((watcherOf [targetAt "a" 0 10, targetAt "b" 50 10, targetAt "c" 70 10] (.nil, none)
          (some "h")).Insert (targetAt "d" 50 10)).WatchedUrls :=
  ⟨by decide,
    C20_insert_position
      (watcherOf [targetAt "a" 0 10, targetAt "b" 50 10, targetAt "c" 70 10] (.nil, none)
        (some "h"))
      (targetAt "d" 50 10) (by decide)⟩

/-! ## C11: entries with the same identity -/

theorem entriesWith_Insert (s : WatcherService) (w : Watched) (url : String) :
    entriesWith url (s.Insert w).WatchedUrls
      = entriesWith url s.WatchedUrls + (if w.Request.URL = url then 1 else 0) := by
  obtain ⟨idx, _, hI, _, _⟩ := Insert_eq s w
  have h := congrArg (entriesWith url) (List.take_append_drop idx s.WatchedUrls)
  simp only [entriesWith, List.countP_append] at h
  simp only [entriesWith, hI, List.countP_append, List.countP_cons, decide_eq_true_eq]
  omega

/-- C11 (as amended). The registry can hold several entries with the same
identity: `Insert` always adds its target, and so does `Register` when it
returns, so that after `Insert` or `Register` of a target whose URL is already
present the registry holds one more entry with that URL than before. -/
theorem C11_no_dedup (s : WatcherService) (w : Watched) (now : Time) (request : WatchRequest) :
    entriesWith w.Request.URL (s.Insert w).WatchedUrls
      = entriesWith w.Request.URL s.WatchedUrls + 1 ∧
    (∀ s', s.Register now request = some s' →
      entriesWith request.URL s'.WatchedUrls = entriesWith request.URL s.WatchedUrls + 1) := by
  constructor
  · simp [entriesWith_Insert]
  · intro s' h
    unfold WatcherService.Register at h
    cases hh : s.httpService.GetNodeHash (s.httpService.GetBody request.URL).1 with
    | none => simp [hh] at h
    | some hash =>
      simp only [hh, Option.some.injEq] at h
      subst h
      simp [entriesWith_Insert]

/-- C11 (witness). A first registration of a URL puts one entry into the empty
registry. -/
theorem C11_no_dedup_witness :
    ∃ s', (watcherOf [] (.nil, none) (some "h")).Register ⟨0⟩
        ⟨⟨"1", "telegram", "42"⟩, "http://example.org", 0⟩ = some s' ∧
      entriesWith "http://example.org" s'.WatchedUrls = 0 + 1 :=
  ⟨_, rfl, (C11_no_dedup (watcherOf [] (.nil, none) (some "h")) (targetAt "a" 0 10) ⟨0⟩
    ⟨⟨"1", "telegram", "42"⟩, "http://example.org", 0⟩).2 _ rfl⟩

/-- C11 (counterexample). Registering the same URL twice leaves two entries
with that URL in the registry. -/
theorem C11_registered_twice_counterexample :
    (((watcherOf [] (.nil, none) (some "h")).Register ⟨1000000000⟩
        ⟨⟨"1", "telegram", "42"⟩, "http://example.org", 0⟩).bind fun s =>
      (s.Register ⟨2000000000⟩ ⟨⟨"1", "telegram", "42"⟩, "http://example.org", 0⟩).map fun s' =>
        s'.WatchedUrls.map fun x => x.Request.URL)
      = some ["http://example.org", "http://example.org"] := by
  have h1 : (watcherOf [] (.nil, none) (some "h")).Register ⟨1000000000⟩
      ⟨⟨"1", "telegram", "42"⟩, "http://example.org", 0⟩
      = some (watcherOf [targetAt "http://example.org" 1 10] (.nil, none) (some "h")) := by
    simp [WatcherService.Register, WatcherService.Insert, Search, searchLoop, watcherOf,
      targetAt]
  rw [h1, Option.some_bind]
  simp [WatcherService.Register, WatcherService.Insert, Search, searchLoop, watcherOf, targetAt,
    Time.After]

/-! ## C15: the registry after a cycle -/

theorem Request_fields (s : WatcherService) (ord : MapOrder) (now1 now2 : Time)
    (w : Watched) (c : Cycle) (h : s.Request ord now1 now2 w = some c) :
    c.watched.LastUpdate = now2 ∧ c.watched.Interval = w.Interval ∧
      c.watched.Request = w.Request := by
  unfold WatcherService.Request at h
  cases hh : s.httpService.GetNodeHash (s.httpService.GetBody w.Request.URL).1 with
  | none => simp [hh] at h
  | some newHash =>
    simp only [hh, Option.some.injEq] at h
    subst h
    exact ⟨rfl, rfl, rfl⟩

theorem replace_sorted (pre post : List Watched) (w w' : Watched)
    (hs : SortedByDueAt (pre ++ w :: post)) :
    SortedByDueAt (pre ++ w' :: post) ↔
      (∀ x ∈ pre, x.dueAt ≤ w'.dueAt) ∧ (∀ x ∈ post, w'.dueAt ≤ x.dueAt) := by
  simp only [SortedByDueAt, List.pairwise_append, List.pairwise_cons, List.mem_cons] at hs ⊢
  obtain ⟨hpre, ⟨_, hpost⟩, hcross⟩ := hs
  constructor
  · rintro ⟨_, ⟨h2, _⟩, h3⟩
    exact ⟨fun x hx => h3 x hx w' (Or.inl rfl), h2⟩
  · rintro ⟨h1, h2⟩
    refine ⟨hpre, ⟨h2, hpost⟩, ?_⟩
    intro a ha b hb
    rcases hb with e | hb
    · subst e
      exact h1 a ha
    · exact hcross a ha b (Or.inr hb)

/-- C15 (as amended). A per-target cycle leaves the processed target at its
position: after `Request` has updated the LastUpdate of a target of a registry
sorted ascending by dueAt to the current time, the registry holds the same
targets at the same positions, the processed one with its new LastUpdate and
its old Interval, and the sequence is sorted ascending by dueAt if and only if
the new dueAt of the processed target is not below the dueAt of an entry
before it and not above the dueAt of an entry after it. -/
theorem C15_request_in_place (s : WatcherService) (ord : MapOrder) (now1 now2 : Time)
    (i : Nat) (s' : WatcherService) (c : Cycle)
    (h : s.RequestAt ord now1 now2 i = some (s', c)) (hs : SortedByDueAt s.WatchedUrls) :
    ∃ pre w post, s.WatchedUrls = pre ++ w :: post ∧ pre.length = i ∧
      s'.WatchedUrls = pre ++ c.watched :: post ∧
      c.watched.LastUpdate = now2 ∧ c.watched.Interval = w.Interval ∧
      c.watched.Request = w.Request ∧
      (SortedByDueAt s'.WatchedUrls ↔
        (∀ x ∈ pre, x.dueAt ≤ c.watched.dueAt) ∧ (∀ x ∈ post, c.watched.dueAt ≤ x.dueAt)) := by
  unfold WatcherService.RequestAt at h
  cases hw : s.WatchedUrls[i]? with
  | none => simp [hw] at h
  | some w =>
    cases hc : s.Request ord now1 now2 w with
    | none => simp [hw, hc] at h
    | some c' =>
      simp only [hw, hc, Option.some.injEq, Prod.mk.injEq] at h
      obtain ⟨h1, h2⟩ := h
      subst h2
      subst h1
      obtain ⟨hlt, hget⟩ := List.getElem?_eq_some.mp hw
      have hsplit : s.WatchedUrls = s.WatchedUrls.take i ++ w :: s.WatchedUrls.drop (i + 1) := by
        rw [← hget, ← List.drop_eq_getElem_cons hlt, List.take_append_drop]
      have hset : s.WatchedUrls.set i c'.watched
          = s.WatchedUrls.take i ++ c'.watched :: s.WatchedUrls.drop (i + 1) :=
        List.set_eq_take_cons_drop _ hlt
      obtain ⟨f1, f2, f3⟩ := Request_fields s ord now1 now2 w c' hc
      refine ⟨s.WatchedUrls.take i, w, s.WatchedUrls.drop (i + 1), hsplit, ?_, hset, f1, f2, f3,
        ?_⟩
      · rw [List.length_take]
        omega
      · show SortedByDueAt (s.WatchedUrls.set i c'.watched) ↔ _
        rw [hset]
        rw [hsplit] at hs
        exact replace_sorted _ _ w c'.watched hs

/-- C15 (witness). The cycle of the last target of a sorted registry, run at
second 100, leaves the registry sorted. -/
theorem C15_request_in_place_witness :
    SortedByDueAt [targetAt "a" 0 10, targetAt "b" 5 10] ∧
    ∃ pre w post, [targetAt "a" 0 10, targetAt "b" 5 10] = pre ++ w :: post ∧ pre.length = 1 ∧
      [targetAt "a" 0 10, targetAt "b" 100 10] = pre ++ targetAt "b" 100 10 :: post ∧
      (targetAt "b" 100 10).LastUpdate = ⟨100000000000⟩ ∧
      (targetAt "b" 100 10).Interval = w.Interval ∧
      (targetAt "b" 100 10).Request = w.Request ∧
      (SortedByDueAt [targetAt "a" 0 10, targetAt "b" 100 10] ↔
        (∀ x ∈ pre, x.dueAt ≤ (targetAt "b" 100 10).dueAt) ∧
          (∀ x ∈ post, (targetAt "b" 100 10).dueAt ≤ x.dueAt)) :=
  ⟨by decide,
    C15_request_in_place
      (watcherOf [targetAt "a" 0 10, targetAt "b" 5 10] (.nil, none) (some "h"))
      insertionOrder ⟨100000000000⟩ ⟨100000000000⟩ 1
      (watcherOf [targetAt "a" 0 10, targetAt "b" 100 10] (.nil, none) (some "h"))
      ⟨targetAt "b" 100 10, [], []⟩ rfl (by decide)⟩

/-- C15 (counterexample). The registry holds two targets due at seconds 10 and
15; the cycle of the first one, run at second 100, leaves it in front with the
dueAt 110: the registry is no longer sorted by dueAt. -/
theorem C15_not_repositioned_counterexample :
    SortedByDueAt [targetAt "a" 0 10, targetAt "b" 5 10] ∧
    ((watcherOf [targetAt "a" 0 10, targetAt "b" 5 10] (.nil, none) (some "h")).RequestAt
        insertionOrder ⟨100000000000⟩ ⟨100000000000⟩ 0).map (fun r => r.1.WatchedUrls)
      = some [targetAt "a" 100 10, targetAt "b" 5 10] ∧
    ¬ SortedByDueAt [targetAt "a" 100 10, targetAt "b" 5 10] := by
  refine ⟨by decide, by decide, by decide⟩

/-! ## C12, C13, C16: the cycle and the registration -/

/-- C12. In a per-target cycle that reaches the comparison of the fingerprints,
`Request` invokes the diff engine exactly when the stored fingerprint is
non-empty and differs from the fresh one, and it is only then that the
callback, if one is set, is called, with the rendered diff; in particular a
fresh fingerprint equal to the stored one gives zero diff-engine invocations
and zero notifications, and so does an empty stored fingerprint. -/
theorem C12_diff_only_on_changed_hash (s : WatcherService) (ord : MapOrder) (now1 now2 : Time)
    (watched : Watched) (newHash : String)
    (hh : s.httpService.GetNodeHash (s.httpService.GetBody watched.Request.URL).1
      = some newHash) :
    ∃ c, s.Request ord now1 now2 watched = some c ∧
      (c.diffCalls = if watched.Hash ≠ "" ∧ watched.Hash ≠ newHash then
          [(watched.Body, (s.httpService.GetBody watched.Request.URL).1)] else []) ∧
      (c.notified = if (watched.Hash ≠ "" ∧ watched.Hash ≠ newHash) ∧
            s.OnChangeCallback = true then
          [{ URL := watched.Request.URL,
             ChannelID := watched.Request.FeedbackChannelInfo.ChannelID,
             Diff := DiffService.Diff ord watched.Body
               (s.httpService.GetBody watched.Request.URL).1 }] else []) ∧
      (watched.Hash = newHash → c.diffCalls = [] ∧ c.notified = []) ∧
      (watched.Hash = "" → c.diffCalls = [] ∧ c.notified = []) := by
  unfold WatcherService.Request
  simp only [hh]
  refine ⟨_, rfl, ?_, ?_, ?_, ?_⟩
  · split_ifs <;> rfl
  · by_cases hc : watched.Hash ≠ "" ∧ watched.Hash ≠ newHash
    · by_cases hb : s.OnChangeCallback = true <;> simp [hc, hb]
    · simp [hc]
  · intro he
    simp [he]
  · intro he
    simp [he]

/-- C12 (witness). A target with the stored fingerprint `h` whose page now has
the fingerprint `h2`: one diff-engine invocation and one notification; with
the fresh fingerprint `h`: none. -/
theorem C12_diff_only_on_changed_hash_witness :
    (∃ c, (watcherOf [targetAt "a" 0 10] (.nil, none) (some "h2")).Request insertionOrder
        ⟨1⟩ ⟨2⟩ (targetAt "a" 0 10) = some c ∧ c.diffCalls.length = 1 ∧ c.notified.length = 1) ∧
    (∃ c, (watcherOf [targetAt "a" 0 10] (.nil, none) (some "h")).Request insertionOrder
        ⟨1⟩ ⟨2⟩ (targetAt "a" 0 10) = some c ∧ c.diffCalls = [] ∧ c.notified = []) := by
  constructor
  · obtain ⟨c, h1, h2, h3, _, _⟩ := C12_diff_only_on_changed_hash
      (watcherOf [targetAt "a" 0 10] (.nil, none) (some "h2")) insertionOrder ⟨1⟩ ⟨2⟩
      (targetAt "a" 0 10) "h2" rfl
    refine ⟨c, h1, ?_, ?_⟩
    · rw [h2, if_pos (by decide)]
      rfl
    · rw [h3, if_pos (by decide)]
      rfl
  · obtain ⟨c, h1, _, _, h4, _⟩ := C12_diff_only_on_changed_hash
      (watcherOf [targetAt "a" 0 10] (.nil, none) (some "h")) insertionOrder ⟨1⟩ ⟨2⟩
      (targetAt "a" 0 10) "h" rfl
    exact ⟨c, h1, h4 rfl⟩

/-- C13 (the code at a failing fetch). The target holds the body `<body>` with
the fingerprint `h`; the fetch fails, so `GetBody` returns a nil node and an
error. `Request` drops the error: when the digest of the nil node comes back
(here `d`), it runs the diff engine against the nil node, notifies the removal
of the body and overwrites Body, Hash and LastUpdate; when the renderer ends in
a panic on the nil node, so does the cycle. -/
theorem C13_fetch_failure_not_handled :
    (watcherOf [] (.nil, some "connection refused") (some "d")).Request insertionOrder ⟨1⟩ ⟨2⟩
        { Hash := "h", Body := .mk ElementNode "body" [] .nil .nil, LastUpdate := ⟨0⟩,
          Interval := 10, Request := ⟨⟨"1", "telegram", "42"⟩, "http://example.org", 0⟩ }
      = some
        { watched :=
            { Hash := "d", Body := .nil, LastUpdate := ⟨2⟩, Interval := 10,
              Request := ⟨⟨"1", "telegram", "42"⟩, "http://example.org", 0⟩ },
          diffCalls := [(.mk ElementNode "body" [] .nil .nil, .nil)],
          notified := [⟨"http://example.org", "42", "1. Node removed at \n"⟩] } ∧
    (watcherOf [] (.nil, some "connection refused") none).Request insertionOrder ⟨1⟩ ⟨2⟩
        { Hash := "h", Body := .mk ElementNode "body" [] .nil .nil, LastUpdate := ⟨0⟩,
          Interval := 10, Request := ⟨⟨"1", "telegram", "42"⟩, "http://example.org", 0⟩ }
      = none := by
  constructor
  · simp [WatcherService.Request, watcherOf, DiffService.Diff, compareTrees_eq, diffsToString,
      renderLoop]
    decide
  · rfl

/-- C16 (the code at a registration). Whatever interval `n` the request asks
for, 0 included, the new registry entry gets the Interval 10: neither the
requested interval nor the documented default of 3600 seconds. -/
theorem C16_register_interval_is_ten (n : Int) :
    ((watcherOf [] (.nil, none) (some "h")).Register ⟨0⟩
        ⟨⟨"1", "telegram", "42"⟩, "http://example.org", n⟩).map
      (fun s => s.WatchedUrls.map fun x => (x.Request.Interval, x.Interval))
      = some [(n, 10)] := by
  simp [WatcherService.Register, WatcherService.Insert, Search, searchLoop, watcherOf]

/-! ## C17: the records of the attributes -/

theorem AttrMap.lookup_set (m : AttrMap) (k v k' : String) :
    AttrMap.lookup (AttrMap.set m k v) k' = if k = k' then some v else AttrMap.lookup m k' := by
  induction m with
  | nil => simp [AttrMap.set, AttrMap.lookup]
  | cons e m ih =>
    obtain ⟨k0, v0⟩ := e
    by_cases h0 : k0 = k
    · subst h0
      by_cases h1 : k0 = k' <;> simp [AttrMap.set, AttrMap.lookup, h1]
    · by_cases h1 : k0 = k'
      · subst h1
        have h2 : ¬ k = k0 := fun e => h0 e.symm
        simp [AttrMap.set, AttrMap.lookup, h0, h2]
      · simp [AttrMap.set, AttrMap.lookup, h0, h1, ih]

theorem lookup_foldl_set (attr : List Attribute) (m : AttrMap) (k : String) :
    AttrMap.lookup (attr.foldl (fun m a => AttrMap.set m a.Key a.Val) m) k
      = match attrValue attr k with
        | some v => some v
        | none => AttrMap.lookup m k := by
  induction attr generalizing m with
  | nil => simp [attrValue]
  | cons a attr ih =>
    rw [List.foldl_cons, ih, AttrMap.lookup_set]
    simp only [attrValue]
    cases attrValue attr k with
    | some v => rfl
    | none => by_cases h : a.Key = k <;> simp [h]

theorem lookup_buildAttrs (attr : List Attribute) (k : String) :
    AttrMap.lookup (buildAttrs attr) k = attrValue attr k := by
  unfold buildAttrs
  rw [lookup_foldl_set]
  cases attrValue attr k <;> simp [AttrMap.lookup]

theorem attr_path_inj (q k k' : String) (h : q ++ "[@" ++ k ++ "]" = q ++ "[@" ++ k' ++ "]") :
    k = k' := by
  have h' := congrArg String.data h
  simp only [String.data_append, List.append_assoc] at h'
  exact String.ext (List.append_cancel_right (List.append_cancel_left (List.append_cancel_left h')))

theorem mem_removedOrModifiedAt (attrs2 : AttrMap) (q : String) (e : String × String)
    (d : Diff) :
    d ∈ removedOrModifiedAt attrs2 q e ↔
      (AttrMap.lookup attrs2 e.1 = none ∧
        d = { Typ := .Removed, Path := q ++ "[@" ++ e.1 ++ "]", Old := e.2, New := "",
              Message := "Attribute '" ++ e.1 ++ "' removed" }) ∨
      (∃ v2, AttrMap.lookup attrs2 e.1 = some v2 ∧ e.2 ≠ v2 ∧
        d = { Typ := .Modified, Path := q ++ "[@" ++ e.1 ++ "]", Old := e.2, New := v2,
              Message := "Attribute '" ++ e.1 ++ "' changed from " ++ e.2 ++ " to " ++ v2 }) := by
  unfold removedOrModifiedAt removedOrModified
  cases hl : AttrMap.lookup attrs2 e.1 with
  | none => simp
  | some v2 =>
    by_cases hv : e.2 = v2
    · simp [hv]
    · simp [hv]

theorem mem_addedAttrAt (attrs1 : AttrMap) (q : String) (e : String × String) (d : Diff) :
    d ∈ addedAttrAt attrs1 q e ↔
      AttrMap.lookup attrs1 e.1 = none ∧
        d = { Typ := .Added, Path := q ++ "[@" ++ e.1 ++ "]", Old := "", New := e.2,
              Message := "Attribute '" ++ e.1 ++ "' added" } := by
  unfold addedAttrAt addedAttr
  cases hl : AttrMap.lookup attrs1 e.1 with
  | none => simp
  | some v => simp

theorem flatMap_nodup_of_path (l : AttrMap) (nd : (AttrMap.keys l).Nodup) (q : String)
    (f : String × String → List Diff) (h1 : ∀ e, (f e).Nodup)
    (h2 : ∀ e, ∀ d ∈ f e, d.Path = q ++ "[@" ++ e.1 ++ "]") : (l.flatMap f).Nodup := by
  rw [List.nodup_flatMap]
  refine ⟨fun e _ => h1 e, ?_⟩
  have hp : l.Pairwise fun a b => a.1 ≠ b.1 := List.pairwise_map.mp nd
  refine hp.imp ?_
  intro a b hab d hda hdb
  exact hab (attr_path_inj q _ _ ((h2 a d hda).symm.trans (h2 b d hdb)))

theorem removedOrModifiedAt_nodup (attrs2 : AttrMap) (q : String) (e : String × String) :
    (removedOrModifiedAt attrs2 q e).Nodup := by
  unfold removedOrModifiedAt removedOrModified
  cases AttrMap.lookup attrs2 e.1 with
  | none => simp
  | some v2 => by_cases hv : e.2 = v2 <;> simp [hv]

theorem addedAttrAt_nodup (attrs1 : AttrMap) (q : String) (e : String × String) :
    (addedAttrAt attrs1 q e).Nodup := by
  unfold addedAttrAt addedAttr
  cases AttrMap.lookup attrs1 e.1 <;> simp

theorem attrDiffs_nodup (ord : MapOrder) (a1 a2 : List Attribute) (q : String) :
    (attrDiffs ord a1 a2 q).Nodup := by
  unfold attrDiffs
  rw [List.nodup_append]
  refine ⟨?_, ?_, ?_⟩
  · refine flatMap_nodup_of_path _ (range_nodup ord _ _ _ (buildAttrs_nodup a1)) q _
      (removedOrModifiedAt_nodup _ q) ?_
    intro e d hd
    rcases (mem_removedOrModifiedAt _ q e d).mp hd with ⟨_, rfl⟩ | ⟨v2, _, _, rfl⟩ <;> rfl
  · refine flatMap_nodup_of_path _ (range_nodup ord _ _ _ (buildAttrs_nodup a2)) q _
      (addedAttrAt_nodup _ q) ?_
    intro e d hd
    obtain ⟨_, rfl⟩ := (mem_addedAttrAt _ q e d).mp hd
    rfl
  · intro d h1 h2
    obtain ⟨e1, _, he1⟩ := List.mem_flatMap.mp h1
    obtain ⟨e2, _, he2⟩ := List.mem_flatMap.mp h2
    obtain ⟨_, hd2⟩ := (mem_addedAttrAt _ q e2 d).mp he2
    rcases (mem_removedOrModifiedAt _ q e1 d).mp he1 with ⟨_, hd1⟩ | ⟨v2, _, _, hd1⟩
    · rw [hd1] at hd2
      simp at hd2
    · rw [hd1] at hd2
      simp at hd2

/-- C17. For every two element nodes and every node path `q`, the records
returned by `compareAttributes` are exactly, each of them once: one Removed
record (Old = the old value) for each key present in old and absent in new, one
Modified record (Old and New = the two values) for each key present in both with
different values, and one Added record (New = the new value) for each key
present only in new; the record of key `k` has `Path = q + "[@" + k + "]"`, and
the value of a key is that of its last occurrence in the attribute list. -/
theorem C17_compareAttributes_records (ord : MapOrder) (t1 : NodeType) (d1 : String)
    (a1 : List Attribute) (fc1 ns1 : Node) (t2 : NodeType) (d2 : String) (a2 : List Attribute)
    (fc2 ns2 : Node) (q : String) :
    ∃ ds, compareAttributes ord (.mk t1 d1 a1 fc1 ns1) (.mk t2 d2 a2 fc2 ns2) q = .ok ds ∧
      ds.Nodup ∧
      ∀ d, d ∈ ds ↔
        (∃ k v, attrValue a1 k = some v ∧ attrValue a2 k = none ∧
          d = { Typ := .Removed, Path := q ++ "[@" ++ k ++ "]", Old := v, New := "",
                Message := "Attribute '" ++ k ++ "' removed" }) ∨
        (∃ k v1 v2, attrValue a1 k = some v1 ∧ attrValue a2 k = some v2 ∧ v1 ≠ v2 ∧
          d = { Typ := .Modified, Path := q ++ "[@" ++ k ++ "]", Old := v1, New := v2,
                Message := "Attribute '" ++ k ++ "' changed from " ++ v1 ++ " to " ++ v2 }) ∨
        (∃ k v, attrValue a1 k = none ∧ attrValue a2 k = some v ∧
          d = { Typ := .Added, Path := q ++ "[@" ++ k ++ "]", Old := "", New := v,
                Message := "Attribute '" ++ k ++ "' added" }) := by
  refine ⟨attrDiffs ord a1 a2 q, compareAttributes_mk _ _ _ _ _ _ _ _ _ _ _ _,
    attrDiffs_nodup ord a1 a2 q, fun d => ?_⟩
  have n1 := buildAttrs_nodup a1
  have n2 := buildAttrs_nodup a2
  unfold attrDiffs
  simp only [List.mem_append, List.mem_flatMap, mem_range, mem_removedOrModifiedAt,
    mem_addedAttrAt, Prod.exists, ← AttrMap.lookup_eq_some _ n1, ← AttrMap.lookup_eq_some _ n2,
    lookup_buildAttrs]
  constructor
  · rintro (⟨k, v, hv, ⟨hn, hd⟩ | ⟨v2, h2, hne, hd⟩⟩ | ⟨k, v, hv, hn, hd⟩)
    · exact Or.inl ⟨k, v, hv, hn, hd⟩
    · exact Or.inr (Or.inl ⟨k, v, v2, hv, h2, hne, hd⟩)
    · exact Or.inr (Or.inr ⟨k, v, hn, hv, hd⟩)
  · rintro (⟨k, v, hv, hn, hd⟩ | ⟨k, v, v2, hv, h2, hne, hd⟩ | ⟨k, v, hn, hv, hd⟩)
    · exact Or.inl ⟨k, v, hv, Or.inl ⟨hn, hd⟩⟩
    · exact Or.inl ⟨k, v, hv, Or.inr ⟨v2, h2, hne, hd⟩⟩
    · exact Or.inr ⟨k, v, hv, hn, hd⟩

/-- C17 (witness). The old node lists `x="1" x="2" y="3"`, the new one
`x="2" z="4"`: `y` is reported as removed, `z` as added, and `x`, whose last
old value is the new value, is not reported as modified from `1`. -/
theorem C17_compareAttributes_records_witness :
    ∃ ds, compareAttributes reverseOrder
        (.mk ElementNode "a" [⟨"", "x", "1"⟩, ⟨"", "x", "2"⟩, ⟨"", "y", "3"⟩] .nil .nil)
        (.mk ElementNode "a" [⟨"", "x", "2"⟩, ⟨"", "z", "4"⟩] .nil .nil) "/a" = .ok ds ∧
      ({ Typ := .Removed, Path := "/a" ++ "[@" ++ "y" ++ "]", Old := "3", New := "",
         Message := "Attribute '" ++ "y" ++ "' removed" } : Diff) ∈ ds ∧
      ({ Typ := .Added, Path := "/a" ++ "[@" ++ "z" ++ "]", Old := "", New := "4",
         Message := "Attribute '" ++ "z" ++ "' added" } : Diff) ∈ ds ∧
      ({ Typ := .Modified, Path := "/a[@x]", Old := "1", New := "2",
         Message := "Attribute 'x' changed from 1 to 2" } : Diff) ∉ ds := by
  obtain ⟨ds, h, _, hmem⟩ := C17_compareAttributes_records reverseOrder ElementNode "a"
    [⟨"", "x", "1"⟩, ⟨"", "x", "2"⟩, ⟨"", "y", "3"⟩] .nil .nil ElementNode "a"
    [⟨"", "x", "2"⟩, ⟨"", "z", "4"⟩] .nil .nil "/a"
  refine ⟨ds, h, (hmem _).mpr (Or.inl ⟨"y", "3", by decide, by decide, rfl⟩),
    (hmem _).mpr (Or.inr (Or.inr ⟨"z", "4", by decide, by decide, rfl⟩)), fun hx => ?_⟩
  rcases (hmem _).mp hx with ⟨k, v, _, _, hd⟩ | ⟨k, v1, v2, h1, _, _, hd⟩ | ⟨k, v, _, _, hd⟩
  · simp at hd
  · have hk : k = "x" := by
      have hp := congrArg Diff.Path hd
      have e : ("/a[@x]" : String) = "/a" ++ "[@" ++ "x" ++ "]" := by decide
      simp only [e] at hp
      exact (attr_path_inj _ _ _ hp).symm
    subst hk
    have hv : v1 = "1" := (congrArg Diff.Old hd).symm
    subst hv
    exact absurd h1 (by decide)
  · simp at hd

/-! ## C19: the numbers of records in the two directions -/

theorem flip_view_counts (fwd bwd : List Diff)
    (h : (fwd.map (Diff.swappedView fun _ => ())).Perm (bwd.map (Diff.view fun _ => ())))
    (t : DiffType) :
    fwd.countP (fun d => decide (d.Typ = t)) = bwd.countP (fun d => decide (d.Typ = t.flip)) := by
  have hc := h.countP_eq (fun r => decide (r.1 = t.flip))
  rw [List.countP_map, List.countP_map] at hc
  have e1 : ((fun r : DiffType × Unit × String × String => decide (r.1 = t.flip)) ∘
      Diff.swappedView fun _ => ()) = fun d => decide (d.Typ = t) := by
    funext d
    cases hd : d.Typ <;> cases t <;> simp [Diff.swappedView, DiffType.flip, hd]
  have e2 : ((fun r : DiffType × Unit × String × String => decide (r.1 = t.flip)) ∘
      Diff.view fun _ => ()) = fun d => decide (d.Typ = t.flip) := by
    funext d
    simp [Diff.view]
  rw [e1, e2] at hc
  exact hc

/-- C19. For every pair of trees `a`, `b` and every path `p`,
`compareTrees(a, b, p)` and `compareTrees(b, a, p)` contain the same number of
records, as many Added records in one direction as Removed records in the
other, and equally many Modified records; in particular one direction is empty
if and only if the other is. -/
theorem C19_mirrored_counts (ord1 ord2 : MapOrder) (a b : Node) (p : String) :
    ∃ fwd bwd, compareTrees ord1 a b p = .ok fwd ∧ compareTrees ord2 b a p = .ok bwd ∧
      fwd.length = bwd.length ∧
      fwd.countP (fun d => decide (d.Typ = .Added))
        = bwd.countP (fun d => decide (d.Typ = .Removed)) ∧
      fwd.countP (fun d => decide (d.Typ = .Removed))
        = bwd.countP (fun d => decide (d.Typ = .Added)) ∧
      fwd.countP (fun d => decide (d.Typ = .Modified))
        = bwd.countP (fun d => decide (d.Typ = .Modified)) ∧
      (fwd = [] ↔ bwd = []) := by
  have h := (mirror_perm (fun _ => ()) ord1 ord2 a b).1 p p (fun _ => rfl)
    (Or.inr fun _ _ => rfl)
  have hlen : (treeDiffs ord1 a b p).length = (treeDiffs ord2 b a p).length := by
    simpa using h.length_eq
  refine ⟨_, _, compareTrees_eq _ _ _ _, compareTrees_eq _ _ _ _, hlen,
    flip_view_counts _ _ h .Added, flip_view_counts _ _ h .Removed,
    flip_view_counts _ _ h .Modified, ?_⟩
  rw [← List.length_eq_zero, ← List.length_eq_zero, hlen]

end ChangeDetector
